import Mathlib

/-!
A verification development for the pipeweld step-placement engine
(`src/usethis/_pipeweld/func.py`).

The data model (`containers.py`), the instruction vocabulary (`ops.py`) and
the result record (`result.py`) are imported by `func.py` but their sources
are not part of the code under study, so they are modelled from the
specification (see the doc comments marked `Modelled from the spec:`).
All algorithmic definitions are translated from `func.py` itself.

Python-to-Lean conventions used throughout:
* `str | Series | Parallel` becomes the inductive `Component`;
* Python `set[str]` arguments become `List String` with membership tests;
* a raised exception (`ValueError`, `IndexError`, `AssertionError`) becomes
  `none` / an `err` constructor of the corresponding result type;
* functions that mutate a list in place are written in state-passing style:
  they return the new value of the list they mutate.  Where CPython copies a
  list (`Series(list(subcomponent.root))`) so that subsequent in-place edits
  of the copy are lost while edits *inside* shared elements survive, the
  translation returns both values (see `SlotEffect` and the `full`/`deep`
  pair in `InsertOutcome`).
-/

namespace Pipeweld

/-- Modelled from the spec: the pipeline structure of `containers.py` (missing
from the sources), a closed tagged union of an atomic step (a bare `str` in
the source), a `Series` (ordered sequential composition, `root` a list) and a
`Parallel` (concurrent composition; the spec describes its members as an
unordered, deduplicated collection - here the members are kept as the list in
insertion order, which is the deterministic representative used throughout). -/
inductive Component where
  | atom (s : String)
  | ser (items : List Component)
  | par (items : List Component)

mutual

/-- Size of a component (number of nodes), used as a fuel bound. -/
def sz : Component → Nat
  | .atom _ => 1
  | .ser l => 1 + szL l
  | .par l => 1 + szL l

/-- Size of a list of components. -/
def szL : List Component → Nat
  | [] => 0
  | c :: cs => sz c + szL cs

end

/-- Modelled from the spec: structural equality of `containers.py` values
(pydantic `==`): deep value equality, order-dependent for `Series`,
order-independent (set semantics) for `Parallel`.  Fuel-indexed so that it
is structurally recursive; `ceq` below applies it with sufficient fuel. -/
def ceqF : Nat → Component → Component → Bool
  | 0, _, _ => false
  | _ + 1, .atom a, .atom b => a == b
  | n + 1, .ser l1, .ser l2 =>
      l1.length == l2.length &&
      (List.zip l1 l2).all (fun p => ceqF n p.1 p.2)
  | n + 1, .par l1, .par l2 =>
      l1.all (fun x => l2.any (fun y => ceqF n x y)) &&
      l2.all (fun y => l1.any (fun x => ceqF n x y))
  | _ + 1, _, _ => false

/-- Equality of two components in the sense of the Python `==` of the
container models. -/
def ceq (a b : Component) : Bool := ceqF (sz a + sz b) a b

/-- Deduplicate a list of components, keeping the first occurrence of each
equivalence class of `ceq` - the effect of collecting members into a set. -/
def dedupCeq : List Component → List Component
  | [] => []
  | c :: cs => c :: (dedupCeq cs).filter (fun d => !(ceq c d))

/-- Whether a component is an empty container (`Series`/`Parallel` with no
items). -/
def isEmptyContainer : Component → Bool
  | .atom _ => false
  | .ser l => l.isEmpty
  | .par l => l.isEmpty

/-- Modelled from the spec: the `series(*items)` construction helper of
`containers.py` - constructs a `Series`, dropping empty inputs (`None`
arguments are filtered at call sites, which only ever pass present values). -/
def series (items : List Component) : Component :=
  .ser (items.filter (fun c => !(isEmptyContainer c)))

/-- Modelled from the spec: the `parallel(*items)` construction helper of
`containers.py` - constructs a `Parallel` as a deduplicated collection. -/
def parallel (items : List Component) : Component :=
  .par (dedupCeq items)

mutual

/-- The atoms (step names) of a component, in left-to-right traversal order. -/
def flatAtoms : Component → List String
  | .atom s => [s]
  | .ser l => flatAtomsL l
  | .par l => flatAtomsL l

/-- The atoms of a list of components, in order. -/
def flatAtomsL : List Component → List String
  | [] => []
  | c :: cs => flatAtoms c ++ flatAtomsL cs

end

/-- Modelled from the spec: the edit-operation vocabulary of `ops.py`
(`InsertParallel(after, step)` and `InsertSuccessor(after, step)`, both
subclasses of `BaseOperation`). -/
inductive BaseOperation where
  | InsertParallel (after : Option String) (step : String)
  | InsertSuccessor (after : Option String) (step : String)
  deriving DecidableEq, Repr

/-- The `step` field of an operation. -/
def BaseOperation.step : BaseOperation → String
  | .InsertParallel _ s => s
  | .InsertSuccessor _ s => s

/-- Modelled from the spec: the `WeldResult` record of `result.py` - the
ordered instruction list together with the normalized solution structure. -/
structure WeldResult where
  instructions : List BaseOperation
  solution : Component

/-- Translation of `_concat` (func.py lines 507-522): flatten `Series`
arguments one level into an accumulator, append `Parallel`/`str` arguments
as single items, skip `None` arguments; return `None` when nothing was
collected, otherwise `series(*s)`. -/
def concatC (components : List (Option Component)) : Option Component :=
  let s := components.foldl
    (fun acc c =>
      match c with
      | some (.ser items) => acc ++ items
      | some other => acc ++ [other]
      | none => acc) []
  if s.isEmpty then none else some (series s)

/-- Translation of `_union` (func.py lines 525-540): flatten `Parallel`
arguments one level, append `Series`/`str` arguments as single items, skip
`None`; return `None` when nothing was collected, otherwise `parallel(*p)`. -/
def unionC (components : List (Option Component)) : Option Component :=
  let p := components.foldl
    (fun acc c =>
      match c with
      | some (.par items) => acc ++ items
      | some other => acc ++ [other]
      | none => acc) []
  if p.isEmpty then none else some (parallel p)

/-- Lexicographic comparison of character lists by code point, the order
CPython's `<` uses on `str` values. -/
def charsLt : List Char → List Char → Bool
  | [], [] => false
  | [], _ :: _ => true
  | _ :: _, [] => false
  | c :: cs, d :: ds =>
    if c.toNat < d.toNat then true
    else if d.toNat < c.toNat then false
    else charsLt cs ds

/-- Python `<` on strings: lexicographic by code point. -/
def strLt (a b : String) : Bool := charsLt a.data b.data

/-- Python `min` over a list of strings: `none` on the empty list (where
CPython raises `ValueError`), otherwise the lexicographically smallest
element.  `get_endpoint` reaches it as `sorted(endpoints)[0]`. -/
def pyMin : List String → Option String
  | [] => none
  | s :: rest => some (rest.foldl (fun acc t => if strLt t acc then t else acc) s)

mutual

/-- Translation of `get_endpoint` (func.py lines 543-567).  An atom is its
own endpoint; a `Series` is scanned from the end, skipping children without
an endpoint; a `Parallel` takes the alphabetically smallest member endpoint.
`none` models the raised `ValueError` (the spec's `EmptyStructureError`). -/
def get_endpoint : Component → Option String
  | .atom s => some s
  | .ser l => endpointFromEnd l
  | .par l => pyMin (endpointsOf l)

/-- The backwards scan of `get_endpoint` over a `Series`: the endpoint of
the last child that has one. -/
def endpointFromEnd : List Component → Option String
  | [] => none
  | c :: cs =>
    match endpointFromEnd cs with
    | some e => some e
    | none => get_endpoint c

/-- The endpoints of those members of a `Parallel` that have one
(`contextlib.suppress(ValueError)` drops the others). -/
def endpointsOf : List Component → List String
  | [] => []
  | c :: cs =>
    match get_endpoint c with
    | some e => e :: endpointsOf cs
    | none => endpointsOf cs

end

mutual

/-- Translation of `_has_any_steps` (func.py lines 154-163): whether any
descendant atom of the component is one of `steps`. -/
def has_any_steps (component : Component) (steps : List String) : Bool :=
  match component with
  | .atom s => steps.contains s
  | .ser l => hasAnyStepsL l steps
  | .par l => hasAnyStepsL l steps

/-- The loop of `_has_any_steps` over the items of a container. -/
def hasAnyStepsL (l : List Component) (steps : List String) : Bool :=
  match l with
  | [] => false
  | c :: cs => has_any_steps c steps || hasAnyStepsL cs steps

end

/-- Translation of the `Partition` model (func.py lines 166-170). -/
structure Partition where
  prerequisite_component : Option Component := none
  nondependent_component : Option Component := none
  postrequisite_component : Option Component := none
  top_ranked_endpoint : String

/-- Translation of `_flatten_partition` (func.py lines 173-182): concatenate
the three zones in order; `none` models the raised `ValueError` when all
zones are absent. -/
def flatten_partition (p : Partition) : Option Component :=
  concatC [p.prerequisite_component, p.nondependent_component,
    p.postrequisite_component]

mutual

/-- Translation of `_get_instructions_insert_successor` (func.py lines
487-504): an atom becomes one `InsertSuccessor` chained off `after`; a
`Series` chains its items left to right, threading the new endpoint; a
`Parallel` emits nothing (the source's unimplemented TODO branch) and leaves
`after` unchanged. -/
def get_instructions_insert_successor :
    Component → Option String → List BaseOperation × Option String
  | .atom s, after => ([.InsertSuccessor after s], some s)
  | .ser l, after => giisList l after
  | .par _, after => ([], after)

/-- The loop of `_get_instructions_insert_successor` over a `Series`. -/
def giisList : List Component → Option String → List BaseOperation × Option String
  | [], after => ([], after)
  | c :: cs, after =>
    let (ops, after') := get_instructions_insert_successor c after
    let (ops', after'') := giisList cs after'
    (ops ++ ops', after'')

end

/-- Translation of `_op_series_merge_partitions` (func.py lines 317-385),
the pure binary merge of two sibling partitions of a `Series`. -/
def op_series_merge_partitions (partition next_partition : Partition) : Partition :=
  if next_partition.prerequisite_component.isSome then
    { prerequisite_component := concatC [partition.prerequisite_component,
        partition.nondependent_component, partition.postrequisite_component,
        next_partition.prerequisite_component]
      nondependent_component := next_partition.nondependent_component
      postrequisite_component := next_partition.postrequisite_component
      top_ranked_endpoint := next_partition.top_ranked_endpoint }
  else if next_partition.nondependent_component.isSome &&
      partition.postrequisite_component.isSome then
    { prerequisite_component := concatC [partition.prerequisite_component,
        next_partition.prerequisite_component]
      nondependent_component := partition.nondependent_component
      postrequisite_component := concatC [partition.postrequisite_component,
        next_partition.nondependent_component,
        next_partition.postrequisite_component]
      top_ranked_endpoint := next_partition.top_ranked_endpoint }
  else
    { prerequisite_component :=
        match partition.prerequisite_component, next_partition.prerequisite_component with
        | none, q => q
        | p, none => p
        | p, q => concatC [p, q]
      nondependent_component :=
        match partition.nondependent_component, next_partition.nondependent_component with
        | none, q => q
        | p, none => p
        | p, q => concatC [p, q]
      postrequisite_component :=
        match partition.postrequisite_component, next_partition.postrequisite_component with
        | none, q => q
        | p, none => p
        | p, q => concatC [p, q]
      top_ranked_endpoint := next_partition.top_ranked_endpoint }

/-- The singleton-collapse applied to each unioned zone of
`_parallel_merge_partitions`: a resulting one-member `Parallel` is replaced
by its sole member (`(component,) = component.root`). -/
def collapseSingleton : Option Component → Option Component
  | some (.par [c]) => some c
  | other => other

/-- Translation of `_parallel_merge_partitions` (func.py lines 389-484).
Unions each zone across the partitions (collapsing singletons), picks the
minimum `top_ranked_endpoint` with postrequisite-bearing partitions taking
priority over nondependent over prerequisite ones, and emits the
`InsertSuccessor` instructions serializing the three zones after
`predecessor`.  `none` models an uncaught `ValueError` (empty `min`, or
`get_endpoint` failing on a zone). -/
def parallel_merge_partitions (partitions : List Partition)
    (predecessor : Option String) : Option (Partition × List BaseOperation) :=
  let prerequisite_component :=
    collapseSingleton (unionC (partitions.filterMap
      (fun p => p.prerequisite_component) |>.map some))
  let nondependent_component :=
    collapseSingleton (unionC (partitions.filterMap
      (fun p => p.nondependent_component) |>.map some))
  let postrequisite_component :=
    collapseSingleton (unionC (partitions.filterMap
      (fun p => p.postrequisite_component) |>.map some))
  let top_pre := (partitions.filter
    (fun p => p.prerequisite_component.isSome)).map Partition.top_ranked_endpoint
  let top_non := (partitions.filter
    (fun p => p.nondependent_component.isSome)).map Partition.top_ranked_endpoint
  let top_post := (partitions.filter
    (fun p => p.postrequisite_component.isSome)).map Partition.top_ranked_endpoint
  let eps := if !top_post.isEmpty then top_post
    else if !top_non.isEmpty then top_non else top_pre
  match pyMin eps with
  | none => none
  | some top =>
    let i1 := match prerequisite_component with
      | some c => some (get_instructions_insert_successor c predecessor).1
      | none => some []
    let afterNon : Option (Option String) :=
      match prerequisite_component with
      | some c =>
        match get_endpoint c with
        | some e => some (some e)
        | none => none
      | none => some predecessor
    let i2 : Option (List BaseOperation) := match nondependent_component with
      | some c =>
        match afterNon with
        | some a => some (get_instructions_insert_successor c a).1
        | none => none
      | none => some []
    let afterPost : Option (Option String) :=
      match nondependent_component with
      | some c =>
        match get_endpoint c with
        | some e => some (some e)
        | none => none
      | none => afterNon
    let i3 : Option (List BaseOperation) := match postrequisite_component with
      | some c =>
        match afterPost with
        | some a => some (get_instructions_insert_successor c a).1
        | none => none
      | none => some []
    match i1, i2, i3 with
    | some a, some b, some c =>
      some ({ prerequisite_component := prerequisite_component
              nondependent_component := nondependent_component
              postrequisite_component := postrequisite_component
              top_ranked_endpoint := top }, a ++ b ++ c)
    | _, _, _ => none

mutual

/-- Translation of `partition_component` (func.py lines 185-291), the
singledispatch over `str` / `Parallel` / `Series`.  Returns the partition of
the component together with the emitted instructions; `none` models an
uncaught exception (empty `min`, `partitions[0]` on an empty series, or a
failure inside the parallel merge).  Note that in the mixed
prerequisite-and-postrequisite case of a `Parallel` the member instructions
are discarded, exactly as in the source (line 244 returns the merge result
alone). -/
def partition_component (component : Component) (predecessor : Option String)
    (prerequisites postrequisites : List String) :
    Option (Partition × List BaseOperation) :=
  match component with
  | .atom s =>
    if prerequisites.contains s then
      some ({ prerequisite_component := some (.atom s),
              top_ranked_endpoint := s }, [])
    else if postrequisites.contains s then
      some ({ postrequisite_component := some (.atom s),
              top_ranked_endpoint := s }, [])
    else
      some ({ nondependent_component := some (.atom s),
              top_ranked_endpoint := s }, [])
  | .par mem =>
    match partitionMembers mem predecessor prerequisites postrequisites with
    | none => none
    | some results =>
      let partitions := results.map Prod.fst
      let instructions := results.foldr (fun r acc => r.2 ++ acc) []
      let any_prerequisites :=
        partitions.any (fun p => p.prerequisite_component.isSome)
      let any_postrequisites :=
        partitions.any (fun p => p.postrequisite_component.isSome)
      if any_prerequisites && any_postrequisites then
        parallel_merge_partitions partitions predecessor
      else
        match pyMin (partitions.map Partition.top_ranked_endpoint) with
        | none => none
        | some m =>
          if any_prerequisites then
            some ({ prerequisite_component := some (.par mem),
                    top_ranked_endpoint := m }, instructions)
          else if any_postrequisites then
            some ({ postrequisite_component := some (.par mem),
                    top_ranked_endpoint := m }, instructions)
          else
            some ({ nondependent_component := some (.par mem),
                    top_ranked_endpoint := m }, instructions)
  | .ser items =>
    match get_series_partitions items predecessor prerequisites postrequisites with
    | none => none
    | some (partitions, instructions) =>
      match partitions with
      | [] => none
      | p :: rest =>
        if rest.isEmpty then
          some ({ prerequisite_component :=
                    p.prerequisite_component.map (fun c => series [c])
                  nondependent_component :=
                    p.nondependent_component.map (fun c => series [c])
                  postrequisite_component :=
                    p.postrequisite_component.map (fun c => series [c])
                  top_ranked_endpoint := p.top_ranked_endpoint }, instructions)
        else
          some (rest.foldl op_series_merge_partitions p, instructions)

/-- The comprehension of the `Parallel` branch of `partition_component`:
partition every member against the same `predecessor`. -/
def partitionMembers (mem : List Component) (predecessor : Option String)
    (prerequisites postrequisites : List String) :
    Option (List (Partition × List BaseOperation)) :=
  match mem with
  | [] => some []
  | c :: cs =>
    match partition_component c predecessor prerequisites postrequisites with
    | none => none
    | some r =>
      match partitionMembers cs predecessor prerequisites postrequisites with
      | none => none
      | some rs => some (r :: rs)

/-- Translation of `_get_series_partitions` (func.py lines 294-314):
partition the children in order, threading each child's
`top_ranked_endpoint` forward as the next child's `predecessor`. -/
def get_series_partitions (items : List Component) (predecessor : Option String)
    (prerequisites postrequisites : List String) :
    Option (List Partition × List BaseOperation) :=
  match items with
  | [] => some ([], [])
  | c :: cs =>
    match partition_component c predecessor prerequisites postrequisites with
    | none => none
    | some (p, ops) =>
      match get_series_partitions cs (some p.top_ranked_endpoint)
          prerequisites postrequisites with
      | none => none
      | some (ps, ops') => some (p :: ps, ops ++ ops')

end

/-- The effect of one call to `_insert_before_postrequisites` (func.py lines
108-151) on the series slot holding the examined successor, in a form that
keeps track of CPython aliasing.  `insertStepBefore ops` records
`component.root.insert(idx + 1, step)`: an edit of the surrounding list
itself, invisible through a copied list.  `setSlot full deep ops` records
that the owner of the list sees `full` in the slot, while a holder of the
*original* successor object (reached through a copied list, as in the
`Series(list(subcomponent.root))` pattern) sees `deep` - the successor with
only the mutations that happened inside shared child objects. -/
inductive SlotEffect where
  | insertStepBefore (ops : List BaseOperation)
  | setSlot (full deep : Component) (ops : List BaseOperation)

/-- Translation of `_insert_before_postrequisites` (func.py lines 108-151),
expressed as the effect on the single examined slot (the Python function
receives the surrounding series and the index `idx` and only ever touches
`root[idx + 1]`; the callers below apply the returned `SlotEffect` at that
position).  `none` models an uncaught exception (`AssertionError` when
`_union` returns `None`, or `IndexError` on `root[0]` of an empty nested
series).  Cases, in source order:
a singleton `Parallel` successor is unwrapped into a fresh one-item series
(a copied list) and recursed into; afterwards, when that container still
holds exactly the union of the (possibly internally mutated) successor with
the step, the slot is repaired to that union, and otherwise the slot keeps
the original `Parallel` object with only its member's internal mutations;
a `str` or non-singleton `Parallel` successor either gets the step inserted
before it (when it contains a postrequisite) or is replaced by its union
with the step; a `Series` successor is recursed into at its head slot, and
being a shared object all its mutations survive. -/
def insert_before_postrequisites (successor : Component)
    (predecessor : Option String) (step : String)
    (postrequisites : List String) : Option SlotEffect :=
  match successor with
  | .par [m] =>
    match insert_before_postrequisites m predecessor step postrequisites with
    | none => none
    | some e =>
      let containerAfter : List Component :=
        match e with
        | .insertStepBefore _ => [.atom step, m]
        | .setSlot f _ _ => [f]
      let mDeep : Component :=
        match e with
        | .insertStepBefore _ => m
        | .setSlot _ d _ => d
      let ops : List BaseOperation :=
        match e with
        | .insertStepBefore o => o
        | .setSlot _ _ o => o
      let succNow : Component := .par [mDeep]
      let u? := unionC [some succNow, some (.atom step)]
      let repair : Bool :=
        match containerAfter, u? with
        | [x], some u => ceq x u
        | _, _ => false
      match u?, repair with
      | some u, true => some (.setSlot u succNow ops)
      | _, _ => some (.setSlot succNow succNow ops)
  | .par mem =>
    if has_any_steps (.par mem) postrequisites then
      some (.insertStepBefore [.InsertSuccessor predecessor step])
    else
      match unionC [some (.par mem), some (.atom step)] with
      | none => none
      | some u => some (.setSlot u (.par mem) [.InsertParallel predecessor step])
  | .atom a =>
    if has_any_steps (.atom a) postrequisites then
      some (.insertStepBefore [.InsertSuccessor predecessor step])
    else
      match unionC [some (.atom a), some (.atom step)] with
      | none => none
      | some u => some (.setSlot u (.atom a) [.InsertParallel predecessor step])
  | .ser inner =>
    match inner with
    | [] => none
    | h :: t =>
      match insert_before_postrequisites h predecessor step postrequisites with
      | none => none
      | some (.insertStepBefore ops) =>
        some (.setSlot (.ser (.atom step :: h :: t))
          (.ser (.atom step :: h :: t)) ops)
      | some (.setSlot f _ ops) =>
        some (.setSlot (.ser (f :: t)) (.ser (f :: t)) ops)

/-- Result of `_insert_step` on a list of items: `notFound` is the empty
instruction list of func.py line 105 (no prerequisite anywhere, nothing
mutated); `err` is an uncaught exception; `ok full deep ops` gives the list
as seen by the owner of the list (`full`), the list as seen through the
original slots when the scanned list was a copy (`deep`: only mutations
inside shared elements survive), and the returned instructions. -/
inductive InsertOutcome where
  | notFound
  | err
  | ok (full deep : List Component) (ops : List BaseOperation)

mutual

/-- Translation of `_insert_step` (func.py lines 60-105).  The Python loop
walks `component.root` backwards (`reversed(list(enumerate(...)))`); here
this is the recursion that first searches the tail (the later items) and
only then examines the head together with its immediate successor:
an atom that is a prerequisite with a successor delegates to
`_insert_before_postrequisites` anchored there; a prerequisite that is the
last item appends the step (`component.root.append(step)`) and emits one
`InsertSuccessor`; a `Series` item is recursed into as a shared object, so
both views take its full rewrite; a `Parallel` item is recursed into through
the copied list `Series(list(subcomponent.root))`, so only the deep view of
that recursion survives in the retained `Parallel` object. -/
def insert_step (items : List Component) (step : String)
    (prerequisites postrequisites : List String) : InsertOutcome :=
  match items with
  | [] => .notFound
  | c :: cs =>
    match insert_step cs step prerequisites postrequisites with
    | .err => .err
    | .ok full deep ops => .ok (c :: full) (c :: deep) ops
    | .notFound =>
      match c with
      | .atom p =>
        if prerequisites.contains p then
          match cs with
          | [] => .ok [c, .atom step] [c] [.InsertSuccessor (some p) step]
          | succ :: rest =>
            match insert_before_postrequisites succ (some p) step postrequisites with
            | none => .err
            | some (.insertStepBefore ops) =>
              .ok (c :: .atom step :: succ :: rest) (c :: succ :: rest) ops
            | some (.setSlot f d ops) =>
              .ok (c :: f :: rest) (c :: d :: rest) ops
        else .notFound
      | .ser inner => insertStepInto (.ser inner) cs step prerequisites postrequisites
      | .par mem => insertStepInto (.par mem) cs step prerequisites postrequisites

/-- The recursion of `_insert_step` into a nested container item: a `Series`
item is shared, so its full rewrite is kept in its slot; a `Parallel` item is
scanned through the copied list `Series(list(subcomponent.root))`, so the
retained `Parallel` object keeps only the deep view of the recursion. -/
def insertStepInto (c : Component) (cs : List Component) (step : String)
    (prerequisites postrequisites : List String) : InsertOutcome :=
  match c with
  | .atom _ => .notFound
  | .ser inner =>
    match insert_step inner step prerequisites postrequisites with
    | .err => .err
    | .notFound => .notFound
    | .ok f _ ops => .ok (.ser f :: cs) (.ser f :: cs) ops
  | .par mem =>
    match insert_step mem step prerequisites postrequisites with
    | .err => .err
    | .notFound => .notFound
    | .ok _ d ops => .ok (.par d :: cs) (.par d :: cs) ops

end

/-- Translation of `add` (func.py lines 12-57): empty pipeline is special
cased; otherwise the pipeline is partitioned, flattened, and the step is
inserted by `_insert_step`, falling back (when no prerequisite was found)
to `_insert_before_postrequisites` with `idx=-1`, i.e. on the slot of the
first top-level item of the rearranged pipeline.  `none` models an uncaught
exception, including a non-`Series` argument. -/
def add (pipeline : Component) (step : String)
    (prerequisites postrequisites : List String := []) : Option WeldResult :=
  match pipeline with
  | .atom _ => none
  | .par _ => none
  | .ser root =>
    if root.isEmpty then
      some { instructions := [.InsertParallel none step],
             solution := series [.atom step] }
    else
      match partition_component (.ser root) none prerequisites postrequisites with
      | none => none
      | some (partition, instructions) =>
        match flatten_partition partition with
        | none => none
        | some (.atom _) => none
        | some (.par _) => none
        | some (.ser rl) =>
          match insert_step rl step prerequisites postrequisites with
          | .err => none
          | .ok full _ ops =>
            some { instructions := instructions ++ ops,
                   solution := .ser full }
          | .notFound =>
            match rl with
            | [] => none
            | h :: t =>
              match insert_before_postrequisites h none step postrequisites with
              | none => none
              | some (.insertStepBefore ops) =>
                some { instructions := instructions ++ ops,
                       solution := .ser (.atom step :: h :: t) }
              | some (.setSlot f _ ops) =>
                some { instructions := instructions ++ ops,
                       solution := .ser (f :: t) }

/-- Whether no member of the list is a `Parallel`. -/
def noParMember (l : List Component) : Bool :=
  l.all (fun c => match c with | .par _ => false | _ => true)

/-- Whether the members of a `Parallel` are pairwise distinct in the sense
of the container equality `ceq` - the invariant every value built by the
deduplicating `parallel` constructor satisfies. -/
def pairwiseDistinct : List Component → Bool
  | [] => true
  | c :: cs => cs.all (fun d => !(ceq c d)) && pairwiseDistinct cs

mutual

/-- Well-formedness of a pipeline structure as the constructors produce it
and as the spec's invariants demand: every container is non-empty, the
members of every `Parallel` are pairwise `ceq`-distinct, and no `Parallel`
sits directly inside a `Parallel`. -/
def wellFormed : Component → Bool
  | .atom _ => true
  | .ser l => !l.isEmpty && wellFormedL l
  | .par l => !l.isEmpty && pairwiseDistinct l && noParMember l && wellFormedL l

/-- Well-formedness of every component of a list. -/
def wellFormedL : List Component → Bool
  | [] => true
  | c :: cs => wellFormed c && wellFormedL cs

end

mutual

/-- Whether a component contains no `Parallel` anywhere. -/
def parFree : Component → Bool
  | .atom _ => true
  | .ser l => parFreeL l
  | .par _ => false

/-- Whether a list of components contains no `Parallel` anywhere. -/
def parFreeL : List Component → Bool
  | [] => true
  | c :: cs => parFree c && parFreeL cs

end

/-- The instruction chain the spec describes for serializing one zone: one
`InsertSuccessor` per step of the zone, each anchored on the previous one,
the first anchored on `after`. -/
def chain (after : Option String) : List String → List BaseOperation
  | [] => []
  | s :: rest => .InsertSuccessor after s :: chain (some s) rest

/-- The last element of a list of atoms, if any - the endpoint a chain of
`InsertSuccessor` instructions ends on. -/
def lastAtom (l : List String) : Option String := l.getLast?

/-- The anchor left after chaining the atoms `l` off `after`: the last atom
when there is one, otherwise `after` unchanged. -/
def lastOr (after : Option String) (l : List String) : Option String :=
  match l.getLast? with
  | some x => some x
  | none => after

/-- The atoms of an optional zone component (an absent zone has none). -/
def zoneAtoms : Option Component → List String
  | none => []
  | some c => flatAtoms c

/-- All atoms mentioned in a partition's three zones. -/
def partitionAtoms (p : Partition) : List String :=
  zoneAtoms p.prerequisite_component ++ zoneAtoms p.nondependent_component ++
    zoneAtoms p.postrequisite_component

/-- The instruction list carried by a slot effect. -/
def SlotEffect.ops : SlotEffect → List BaseOperation
  | .insertStepBefore o => o
  | .setSlot _ _ o => o

mutual

/-- Simultaneous structural induction over components and component lists,
packaged as a recursively defined proof term (the nested inductive does not
get a useful automatic induction principle). -/
def componentInd {P : Component → Prop} {Q : List Component → Prop}
    (hatom : ∀ s, P (.atom s)) (hser : ∀ l, Q l → P (.ser l))
    (hpar : ∀ l, Q l → P (.par l)) (hnil : Q [])
    (hcons : ∀ c cs, P c → Q cs → Q (c :: cs)) :
    ∀ c : Component, P c
  | .atom s => hatom s
  | .ser l => hser l (componentIndL hatom hser hpar hnil hcons l)
  | .par l => hpar l (componentIndL hatom hser hpar hnil hcons l)

/-- The list side of `componentInd`. -/
def componentIndL {P : Component → Prop} {Q : List Component → Prop}
    (hatom : ∀ s, P (.atom s)) (hser : ∀ l, Q l → P (.ser l))
    (hpar : ∀ l, Q l → P (.par l)) (hnil : Q [])
    (hcons : ∀ c cs, P c → Q cs → Q (c :: cs)) :
    ∀ l : List Component, Q l
  | [] => hnil
  | c :: cs => hcons c cs (componentInd hatom hser hpar hnil hcons c)
      (componentIndL hatom hser hpar hnil hcons cs)

end

/-! ### A reference interpreter with an explicit store

CPython mutates the pydantic models' `root` lists in place while several
of them are reachable both from the caller's pipeline and from the value
being assembled as the solution.  To settle claims about what the *caller*
observes, the interpreter below runs the very same `func.py` code over an
explicit store: `HVal.str` is a Python `str`, `HVal.ref a` is a reference
to the mutable `Series`/`Parallel` object stored at address `a`, and every
function threads the store.  Recursive functions take a fuel parameter
(plain structural recursion); the fuel is chosen large enough for the
concrete runs below, and running out of fuel is reported as `none` like an
exception. -/

/-- A Python value of type `str | Series | Parallel`: an immutable string or
a reference to a heap object. -/
inductive HVal where
  | str (s : String)
  | ref (a : Nat)
  deriving DecidableEq, Repr

/-- A heap object: the `root` list of a `Series` or `Parallel` model. -/
inductive HNode where
  | ser (items : List HVal)
  | par (items : List HVal)
  deriving DecidableEq, Repr

/-- The store: object at address `a` is `h[a]`; allocation appends. -/
abbrev Store := List HNode

/-- Allocate a fresh object. -/
def alloc (n : HNode) (h : Store) : HVal × Store := (.ref h.length, h ++ [n])

/-- Read the value of a component out of the store (fuelled: each `ref`
dereference costs one unit). -/
def decode : Nat → Store → HVal → Option Component
  | 0, _, _ => none
  | _ + 1, _, .str s => some (.atom s)
  | fuel + 1, h, .ref a =>
    match h[a]? with
    | none => none
    | some (.ser items) => (items.mapM (decode fuel h)).map Component.ser
    | some (.par items) => (items.mapM (decode fuel h)).map Component.par

/-- Python `==` between two `str | Series | Parallel` values in the store:
deep value equality of what they currently denote. -/
def hCeq (fuel : Nat) (h : Store) (v w : HVal) : Bool :=
  match decode fuel h v, decode fuel h w with
  | some c, some d => ceq c d
  | _, _ => false

/-- Whether a value is an empty container in the store. -/
def isEmptyH (h : Store) : HVal → Bool
  | .str _ => false
  | .ref a =>
    match h[a]? with
    | some (.ser items) => items.isEmpty
    | some (.par items) => items.isEmpty
    | none => false

/-- The `series(*items)` constructor over the store: drop empty inputs,
allocate the new `Series`. -/
def hSeriesCtor (h : Store) (items : List HVal) : HVal × Store :=
  alloc (.ser (items.filter (fun v => !(isEmptyH h v)))) h

/-- The `parallel(*items)` constructor over the store: deduplicate by
Python `==`, allocate the new `Parallel`. -/
def hParallelCtor (fuel : Nat) (h : Store) (items : List HVal) : HVal × Store :=
  let dedup := items.foldl
    (fun acc v => if acc.any (fun w => hCeq fuel h w v) then acc else acc ++ [v]) []
  alloc (.par dedup) h

/-- `_concat` over the store: flatten `Series` arguments one level, then
apply the `series` constructor; `(none, h)` is Python returning `None`. -/
def hConcat (h : Store) (args : List (Option HVal)) : Option HVal × Store :=
  let s := args.foldl
    (fun acc v? =>
      match v? with
      | none => acc
      | some v =>
        match v with
        | .str _ => acc ++ [v]
        | .ref a =>
          match h[a]? with
          | some (.ser items) => acc ++ items
          | _ => acc ++ [v]) []
  if s.isEmpty then (none, h)
  else
    let (v, h') := hSeriesCtor h s
    (some v, h')

/-- `_union` over the store: flatten `Parallel` arguments one level, then
apply the `parallel` constructor. -/
def hUnion (fuel : Nat) (h : Store) (args : List (Option HVal)) :
    Option HVal × Store :=
  let p := args.foldl
    (fun acc v? =>
      match v? with
      | none => acc
      | some v =>
        match v with
        | .str _ => acc ++ [v]
        | .ref a =>
          match h[a]? with
          | some (.par items) => acc ++ items
          | _ => acc ++ [v]) []
  if p.isEmpty then (none, h)
  else
    let (v, h') := hParallelCtor fuel h p
    (some v, h')

/-- `get_endpoint` over the store. -/
def hGetEndpoint : Nat → Store → HVal → Option String
  | 0, _, _ => none
  | _ + 1, _, .str s => some s
  | fuel + 1, h, .ref a =>
    match h[a]? with
    | none => none
    | some (.ser items) =>
      items.foldr
        (fun v acc =>
          match acc with
          | some e => some e
          | none => hGetEndpoint fuel h v) none
    | some (.par items) =>
      pyMin (items.foldr
        (fun v acc =>
          match hGetEndpoint fuel h v with
          | some e => e :: acc
          | none => acc) [])

/-- `_has_any_steps` over the store (`none` only on fuel exhaustion or a
dangling reference). -/
def hHasAnySteps : Nat → Store → HVal → List String → Option Bool
  | 0, _, _, _ => none
  | _ + 1, _, .str s, steps => some (steps.contains s)
  | fuel + 1, h, .ref a, steps =>
    match h[a]? with
    | none => none
    | some (.ser items) =>
      items.foldl
        (fun acc v =>
          match acc with
          | none => none
          | some true => some true
          | some false => hHasAnySteps fuel h v steps) (some false)
    | some (.par items) =>
      items.foldl
        (fun acc v =>
          match acc with
          | none => none
          | some true => some true
          | some false => hHasAnySteps fuel h v steps) (some false)

/-- `_get_instructions_insert_successor` over the store (read-only). -/
def hGiis : Nat → Store → HVal → Option String →
    Option (List BaseOperation × Option String)
  | 0, _, _, _ => none
  | _ + 1, _, .str s, after => some ([.InsertSuccessor after s], some s)
  | fuel + 1, h, .ref a, after =>
    match h[a]? with
    | none => none
    | some (.ser items) =>
      items.foldl
        (fun acc v =>
          match acc with
          | none => none
          | some (ops, aft) =>
            match hGiis fuel h v aft with
            | none => none
            | some (ops2, aft2) => some (ops ++ ops2, aft2)) (some ([], after))
    | some (.par _) => some ([], after)

/-- The transient `Partition` record over the store. -/
structure HPartition where
  prerequisite_component : Option HVal := none
  nondependent_component : Option HVal := none
  postrequisite_component : Option HVal := none
  top_ranked_endpoint : String
  deriving Repr

/-- `_op_series_merge_partitions` over the store (allocates the
concatenations). -/
def hOpSeriesMerge (h : Store) (p q : HPartition) : HPartition × Store :=
  if q.prerequisite_component.isSome then
    let (pre, h1) := hConcat h [p.prerequisite_component, p.nondependent_component,
      p.postrequisite_component, q.prerequisite_component]
    ({ prerequisite_component := pre
       nondependent_component := q.nondependent_component
       postrequisite_component := q.postrequisite_component
       top_ranked_endpoint := q.top_ranked_endpoint }, h1)
  else if q.nondependent_component.isSome && p.postrequisite_component.isSome then
    let (pre, h1) := hConcat h [p.prerequisite_component, q.prerequisite_component]
    let (post, h2) := hConcat h1 [p.postrequisite_component,
      q.nondependent_component, q.postrequisite_component]
    ({ prerequisite_component := pre
       nondependent_component := p.nondependent_component
       postrequisite_component := post
       top_ranked_endpoint := q.top_ranked_endpoint }, h2)
  else
    let (pre, h1) :=
      match p.prerequisite_component, q.prerequisite_component with
      | none, qc => (qc, h)
      | pc, none => (pc, h)
      | pc, qc => hConcat h [pc, qc]
    let (non, h2) :=
      match p.nondependent_component, q.nondependent_component with
      | none, qc => (qc, h1)
      | pc, none => (pc, h1)
      | pc, qc => hConcat h1 [pc, qc]
    let (post, h3) :=
      match p.postrequisite_component, q.postrequisite_component with
      | none, qc => (qc, h2)
      | pc, none => (pc, h2)
      | pc, qc => hConcat h2 [pc, qc]
    ({ prerequisite_component := pre
       nondependent_component := non
       postrequisite_component := post
       top_ranked_endpoint := q.top_ranked_endpoint }, h3)

/-- The singleton collapse of `_parallel_merge_partitions` over the store. -/
def hCollapse (h : Store) : Option HVal → Option HVal
  | some (.ref a) =>
    match h[a]? with
    | some (.par [x]) => some x
    | _ => some (.ref a)
  | other => other

/-- `_parallel_merge_partitions` over the store. -/
def hParallelMerge (fuel : Nat) (h : Store) (partitions : List HPartition)
    (predecessor : Option String) :
    Option (HPartition × List BaseOperation × Store) :=
  let pres := partitions.filterMap (fun p => p.prerequisite_component)
  let nons := partitions.filterMap (fun p => p.nondependent_component)
  let posts := partitions.filterMap (fun p => p.postrequisite_component)
  let (preU, h1) := if pres.isEmpty then (none, h)
    else hUnion fuel h (pres.map some)
  let pre := hCollapse h1 preU
  let (nonU, h2) := if nons.isEmpty then (none, h1)
    else hUnion fuel h1 (nons.map some)
  let non := hCollapse h2 nonU
  let (postU, h3) := if posts.isEmpty then (none, h2)
    else hUnion fuel h2 (posts.map some)
  let post := hCollapse h3 postU
  let top_pre := (partitions.filter
    (fun p => p.prerequisite_component.isSome)).map HPartition.top_ranked_endpoint
  let top_non := (partitions.filter
    (fun p => p.nondependent_component.isSome)).map HPartition.top_ranked_endpoint
  let top_post := (partitions.filter
    (fun p => p.postrequisite_component.isSome)).map HPartition.top_ranked_endpoint
  let eps := if !top_post.isEmpty then top_post
    else if !top_non.isEmpty then top_non else top_pre
  match pyMin eps with
  | none => none
  | some top =>
    let i1 := match pre with
      | some c => (hGiis fuel h3 c predecessor).map Prod.fst
      | none => some []
    let afterNon : Option (Option String) :=
      match pre with
      | some c =>
        match hGetEndpoint fuel h3 c with
        | some e => some (some e)
        | none => none
      | none => some predecessor
    let i2 := match non with
      | some c =>
        match afterNon with
        | some a => (hGiis fuel h3 c a).map Prod.fst
        | none => none
      | none => some []
    let afterPost : Option (Option String) :=
      match non with
      | some c =>
        match hGetEndpoint fuel h3 c with
        | some e => some (some e)
        | none => none
      | none => afterNon
    let i3 := match post with
      | some c =>
        match afterPost with
        | some a => (hGiis fuel h3 c a).map Prod.fst
        | none => none
      | none => some []
    match i1, i2, i3 with
    | some a, some b, some c =>
      some ({ prerequisite_component := pre
              nondependent_component := non
              postrequisite_component := post
              top_ranked_endpoint := top }, a ++ b ++ c, h3)
    | _, _, _ => none

/-- `partition_component` over the store (fuelled; members of a `Parallel`
and children of a `Series` are processed in order, threading the store). -/
def hPartitionComponent (fuel : Nat) (h : Store) (v : HVal)
    (predecessor : Option String) (prerequisites postrequisites : List String) :
    Option (HPartition × List BaseOperation × Store) :=
  match fuel with
  | 0 => none
  | f + 1 =>
    match v with
    | .str s =>
      if prerequisites.contains s then
        some ({ prerequisite_component := some v, top_ranked_endpoint := s }, [], h)
      else if postrequisites.contains s then
        some ({ postrequisite_component := some v, top_ranked_endpoint := s }, [], h)
      else
        some ({ nondependent_component := some v, top_ranked_endpoint := s }, [], h)
    | .ref a =>
      match h[a]? with
      | none => none
      | some (.par mem) =>
        let results? := mem.foldl
          (fun acc m =>
            match acc with
            | none => none
            | some (rs, h') =>
              match hPartitionComponent f h' m predecessor
                  prerequisites postrequisites with
              | none => none
              | some (p, ops, h'') => some (rs ++ [(p, ops)], h''))
          (some ([], h))
        match results? with
        | none => none
        | some (results, h1) =>
          let partitions := results.map Prod.fst
          let instructions := results.foldr (fun r acc => r.2 ++ acc) []
          let any_pre := partitions.any (fun p => p.prerequisite_component.isSome)
          let any_post := partitions.any (fun p => p.postrequisite_component.isSome)
          if any_pre && any_post then
            hParallelMerge f h1 partitions predecessor
          else
            match pyMin (partitions.map HPartition.top_ranked_endpoint) with
            | none => none
            | some m =>
              if any_pre then
                some ({ prerequisite_component := some v,
                        top_ranked_endpoint := m }, instructions, h1)
              else if any_post then
                some ({ postrequisite_component := some v,
                        top_ranked_endpoint := m }, instructions, h1)
              else
                some ({ nondependent_component := some v,
                        top_ranked_endpoint := m }, instructions, h1)
      | some (.ser items) =>
        let state? := items.foldl
          (fun acc c =>
            match acc with
            | none => none
            | some (ps, ops, pred, h') =>
              match hPartitionComponent f h' c pred
                  prerequisites postrequisites with
              | none => none
              | some (p, ops2, h'') =>
                some (ps ++ [p], ops ++ ops2,
                  some p.top_ranked_endpoint, h''))
          (some ([], [], predecessor, h))
        match state? with
        | none => none
        | some (partitions, instructions, _, h1) =>
          match partitions with
          | [] => none
          | p :: rest =>
            if rest.isEmpty then
              let (pre, h2) := match p.prerequisite_component with
                | some c => let (v', h') := hSeriesCtor h1 [c]; (some v', h')
                | none => (none, h1)
              let (non, h3) := match p.nondependent_component with
                | some c => let (v', h') := hSeriesCtor h2 [c]; (some v', h')
                | none => (none, h2)
              let (post, h4) := match p.postrequisite_component with
                | some c => let (v', h') := hSeriesCtor h3 [c]; (some v', h')
                | none => (none, h3)
              some ({ prerequisite_component := pre
                      nondependent_component := non
                      postrequisite_component := post
                      top_ranked_endpoint := p.top_ranked_endpoint },
                instructions, h4)
            else
              let (merged, h2) := rest.foldl
                (fun (acc : HPartition × Store) q =>
                  hOpSeriesMerge acc.2 acc.1 q) (p, h1)
              some (merged, instructions, h2)

/-- `_flatten_partition` over the store. -/
def hFlatten (h : Store) (p : HPartition) : Option (HVal × Store) :=
  match hConcat h [p.prerequisite_component, p.nondependent_component,
      p.postrequisite_component] with
  | (none, _) => none
  | (some v, h') => some (v, h')

/-- `_insert_before_postrequisites` over the store, literally: `a` is the
address of the series object whose slot `j = idx + 1` holds the examined
successor; the series object's `root` list is edited in place. -/
def hInsertBefore (fuel : Nat) (h : Store) (a : Nat) (j : Nat)
    (predecessor : Option String) (step : String)
    (postrequisites : List String) : Option (List BaseOperation × Store) :=
  match fuel with
  | 0 => none
  | f + 1 =>
    match h[a]? with
    | some (.ser items) =>
      match items[j]? with
      | none => none
      | some succ =>
        let singleton? : Option (Nat × HVal) :=
          match succ with
          | .ref b =>
            match h[b]? with
            | some (.par [m]) => some (b, m)
            | _ => none
          | .str _ => none
        match singleton? with
        | some (b, m) =>
          let (contV, h1) := alloc (.ser [m]) h
          match contV with
          | .str _ => none
          | .ref contA =>
            match hInsertBefore f h1 contA 0 predecessor step postrequisites with
            | none => none
            | some (ops, h2) =>
              let (u?, h3) := hUnion f h2 [some (.ref b), some (.str step)]
              let citems := match h3[contA]? with
                | some (.ser l) => l
                | _ => []
              let cond := match citems, u? with
                | [x], some u => hCeq f h3 x u
                | _, _ => false
              if cond then
                let (u2?, h4) := hUnion f h3 [some (.ref b), some (.str step)]
                match u2?, h4[a]? with
                | some u2, some (.ser items') =>
                  some (ops, h4.set a (.ser (items'.set j u2)))
                | _, _ => none
              else
                some (ops, h3)
        | none =>
          match succ with
          | .str _ | .ref _ =>
            let isSer := match succ with
              | .ref b =>
                match h[b]? with
                | some (.ser _) => true
                | _ => false
              | .str _ => false
            if isSer then
              match succ with
              | .ref b => hInsertBefore f h b 0 predecessor step postrequisites
              | .str _ => none
            else
              match hHasAnySteps f h succ postrequisites with
              | none => none
              | some true =>
                some ([.InsertSuccessor predecessor step],
                  h.set a (.ser (items.insertIdx j (.str step))))
              | some false =>
                let (u?, h1) := hUnion f h [some succ, some (.str step)]
                match u?, h1[a]? with
                | some u, some (.ser items') =>
                  some ([.InsertParallel predecessor step],
                    h1.set a (.ser (items'.set j u)))
                | _, _ => none
    | _ => none

/-- The backwards loop of `_insert_step` over the store: `k` is one past the
index under examination (the loop starts at `k = len(root)` and walks down);
returns the instruction list (empty when no prerequisite was found). -/
def hInsertStepLoop (fuel : Nat) (h : Store) (a : Nat) (k : Nat)
    (step : String) (prerequisites postrequisites : List String) :
    Option (List BaseOperation × Store) :=
  match fuel with
  | 0 => none
  | f + 1 =>
    match k with
    | 0 => some ([], h)
    | idx + 1 =>
      match h[a]? with
      | some (.ser items) =>
        match items[idx]? with
        | none => none
        | some sub =>
          match sub with
          | .str s =>
            if prerequisites.contains s then
              if idx + 1 < items.length then
                hInsertBefore f h a (idx + 1) (some s) step postrequisites
              else
                some ([.InsertSuccessor (some s) step],
                  h.set a (.ser (items ++ [.str step])))
            else
              hInsertStepLoop f h a idx step prerequisites postrequisites
          | .ref b =>
            match h[b]? with
            | none => none
            | some (.ser _) =>
              match hInsertStepLoop f h b
                  (match h[b]? with
                   | some (.ser inner) => inner.length
                   | _ => 0) step prerequisites postrequisites with
              | none => none
              | some ([], h1) =>
                hInsertStepLoop f h1 a idx step prerequisites postrequisites
              | some (ops, h1) => some (ops, h1)
            | some (.par mem) =>
              let (tmpV, h1) := alloc (.ser mem) h
              match tmpV with
              | .str _ => none
              | .ref tmpA =>
                match hInsertStepLoop f h1 tmpA mem.length step
                    prerequisites postrequisites with
                | none => none
                | some ([], h2) =>
                  hInsertStepLoop f h2 a idx step prerequisites postrequisites
                | some (ops, h2) => some (ops, h2)
      | _ => none

/-- `_insert_step` over the store: run the backwards loop from the end. -/
def hInsertStep (fuel : Nat) (h : Store) (a : Nat) (step : String)
    (prerequisites postrequisites : List String) :
    Option (List BaseOperation × Store) :=
  match h[a]? with
  | some (.ser items) =>
    hInsertStepLoop fuel h a items.length step prerequisites postrequisites
  | _ => none

/-- `add` over the store: returns the instruction list, the solution value
and the final store (through which the caller's pipeline object at its old
address can be read back). -/
def hAdd (fuel : Nat) (h : Store) (pipeline : Nat) (step : String)
    (prerequisites postrequisites : List String) :
    Option (List BaseOperation × HVal × Store) :=
  match h[pipeline]? with
  | some (.ser items) =>
    if items.isEmpty then
      let (v, h1) := hSeriesCtor h [.str step]
      some ([.InsertParallel none step], v, h1)
    else
      match hPartitionComponent fuel h (.ref pipeline) none
          prerequisites postrequisites with
      | none => none
      | some (partition, instructions, h1) =>
        match hFlatten h1 partition with
        | none => none
        | some (rearranged, h2) =>
          match rearranged with
          | .str _ => none
          | .ref ra =>
            match hInsertStep fuel h2 ra step prerequisites postrequisites with
            | none => none
            | some ([], h3) =>
              match hInsertBefore fuel h3 ra 0 none step postrequisites with
              | none => none
              | some (ops, h4) => some (instructions ++ ops, rearranged, h4)
            | some (ops, h3) => some (instructions ++ ops, rearranged, h3)
  | _ => none

/-! ### Order facts about the string comparison and `pyMin` -/

/-- The items a component contributes when flattened into a series by
`_concat` (a `Series` argument spreads its children, anything else is a
single item). -/
def elemsOf : Component → List Component
  | .ser items => items
  | other => [other]

/-- The items a component contributes when flattened into a parallel by
`_union` (a `Parallel` argument spreads its members). -/
def parElemsOf : Component → List Component
  | .par items => items
  | other => [other]

/-- The contribution of one (optional) argument to `_concat`. -/
def optElems : Option Component → List Component
  | none => []
  | some c => elemsOf c

/-- The contribution of one (optional) argument to `_union`. -/
def optParElems : Option Component → List Component
  | none => []
  | some c => parElemsOf c

/-- A partition that carries only a nondependent zone, with a usable
(non-empty, elementwise well-formed) component there. -/
def NonOnly (p : Partition) : Prop :=
  p.prerequisite_component = none ∧ p.postrequisite_component = none ∧
  ∃ dd, p.nondependent_component = some dd ∧ flatAtoms dd ≠ [] ∧
    wellFormedL (elemsOf dd) = true

mutual

/-- The atoms of the leading group of a component: the group the fallback
`_insert_before_postrequisites` call of `add` welds the new step onto.  The
scan descends into the first item of a `Series` and through the sole member
of a singleton `Parallel`; any other component is its own leading group. -/
def headGroupAtoms : Component → List String
  | .atom s => [s]
  | .ser l => hgSer l
  | .par l => hgPar l

/-- The leading group of a series: that of its first item. -/
def hgSer : List Component → List String
  | [] => []
  | h :: _ => headGroupAtoms h

/-- The leading group of a parallel: a singleton is unwrapped, anything else
is one group. -/
def hgPar : List Component → List String
  | [m] => headGroupAtoms m
  | l => flatAtomsL l

end

mutual

/-- The atoms of a component that come after its leading group. -/
def restAtoms : Component → List String
  | .atom _ => []
  | .ser l => raSer l
  | .par l => raPar l

/-- The trailing atoms of a series: those of its first item, then the
remaining items in full. -/
def raSer : List Component → List String
  | [] => []
  | h :: t => restAtoms h ++ flatAtomsL t

/-- The trailing atoms of a parallel: only a singleton has any. -/
def raPar : List Component → List String
  | [m] => restAtoms m
  | _ => []

end

mutual

/-- The steps of a component that `_get_instructions_insert_successor`
actually serializes: the atoms reached without entering any `Parallel`
(the `Parallel` branch of the source is an unimplemented TODO that emits
nothing for its members), in traversal order. -/
def serAtoms : Component → List String
  | .atom s => [s]
  | .ser l => serAtomsL l
  | .par _ => []

/-- The serialized steps of a list of components, in order. -/
def serAtomsL : List Component → List String
  | [] => []
  | c :: cs => serAtoms c ++ serAtomsL cs

end

/-- The serialized steps of an optional zone component. -/
def zoneSer : Option Component → List String
  | none => []
  | some c => serAtoms c

/-- The anchor left after serializing a zone: the zone's `get_endpoint`
when the zone is present (which may name a step inside a nested `Parallel`
that was never chained), otherwise the incoming anchor unchanged. -/
def anchorAfter (a : Option String) : Option Component → Option String
  | none => a
  | some c => get_endpoint c

/-- Whether a component is not a `Parallel`. -/
def notPar : Component → Bool
  | .par _ => false
  | _ => true

theorem charsLt_irrefl (a : List Char) : charsLt a a = false := by
  induction a with
  | nil => rfl
  | cons c cs ih => simp [charsLt, ih]

theorem charsLt_trans {a b c : List Char} (h1 : charsLt a b = true)
    (h2 : charsLt b c = true) : charsLt a c = true := by
  induction a generalizing b c with
  | nil =>
    cases b with
    | nil => simp [charsLt] at h1
    | cons y ys =>
      cases c with
      | nil => simp [charsLt] at h2
      | cons z zs => simp [charsLt]
  | cons x xs ih =>
    cases b with
    | nil => simp [charsLt] at h1
    | cons y ys =>
      cases c with
      | nil => simp [charsLt] at h2
      | cons z zs =>
        simp only [charsLt] at h1 h2 ⊢
        rcases Nat.lt_trichotomy x.toNat y.toNat with hxy | hxy | hxy
        · rcases Nat.lt_trichotomy y.toNat z.toNat with hyz | hyz | hyz
          · simp [show x.toNat < z.toNat by omega]
          · simp [show x.toNat < z.toNat by omega]
          · simp [show ¬ y.toNat < z.toNat by omega, hyz] at h2
        · rcases Nat.lt_trichotomy y.toNat z.toNat with hyz | hyz | hyz
          · simp [show x.toNat < z.toNat by omega]
          · simp only [show ¬ x.toNat < y.toNat by omega,
              show ¬ y.toNat < x.toNat by omega, if_neg, not_false_iff,
              if_false] at h1
            simp only [show ¬ y.toNat < z.toNat by omega,
              show ¬ z.toNat < y.toNat by omega, if_neg, not_false_iff,
              if_false] at h2
            simp only [show ¬ x.toNat < z.toNat by omega,
              show ¬ z.toNat < x.toNat by omega, if_neg, not_false_iff,
              if_false]
            exact ih h1 h2
          · simp [show ¬ y.toNat < z.toNat by omega, hyz] at h2
        · simp [show ¬ x.toNat < y.toNat by omega, hxy] at h1

theorem char_toNat_inj {x y : Char} (h : x.toNat = y.toNat) : x = y := by
  calc x = Char.ofNat x.toNat := (Char.ofNat_toNat x).symm
    _ = Char.ofNat y.toNat := by rw [h]
    _ = y := Char.ofNat_toNat y

theorem charsLt_trichotomy (a b : List Char) :
    charsLt a b = true ∨ charsLt b a = true ∨ a = b := by
  induction a generalizing b with
  | nil =>
    cases b with
    | nil => right; right; rfl
    | cons y ys => left; rfl
  | cons x xs ih =>
    cases b with
    | nil => right; left; rfl
    | cons y ys =>
      rcases Nat.lt_trichotomy x.toNat y.toNat with h | h | h
      · left; simp [charsLt, h]
      · have hxy : x = y := char_toNat_inj h
        subst hxy
        rcases ih ys with h2 | h2 | h2
        · left; simp [charsLt, h2]
        · right; left; simp [charsLt, h2]
        · right; right; rw [h2]
      · right; left
        have hlt : ¬ x.toNat < y.toNat := by omega
        simp [charsLt, h, hlt]

theorem strLt_irrefl (a : String) : strLt a a = false := charsLt_irrefl a.data

theorem strLt_trans {a b c : String} (h1 : strLt a b = true)
    (h2 : strLt b c = true) : strLt a c = true := charsLt_trans h1 h2

theorem strLt_trichotomy (a b : String) :
    strLt a b = true ∨ strLt b a = true ∨ a.data = b.data :=
  charsLt_trichotomy a.data b.data

theorem strLt_congr_left {a b : String} (h : a.data = b.data) (m : String) :
    strLt a m = strLt b m := by
  simp [strLt, h]

theorem pyMinFold_spec (l : List String) (s : String) :
    (l.foldl (fun acc t => if strLt t acc then t else acc) s) ∈ s :: l ∧
    ∀ e ∈ s :: l,
      strLt e (l.foldl (fun acc t => if strLt t acc then t else acc) s) = false := by
  induction l generalizing s with
  | nil =>
    refine ⟨List.mem_cons_self _ _, ?_⟩
    intro e he
    simp only [List.mem_cons, List.not_mem_nil, or_false] at he
    subst he
    exact strLt_irrefl e
  | cons t ts ih =>
    simp only [List.foldl_cons]
    obtain ⟨hm, hle⟩ := ih (if strLt t s then t else s)
    have hs' : strLt (if strLt t s then t else s)
        (ts.foldl (fun acc u => if strLt u acc then u else acc)
          (if strLt t s then t else s)) = false :=
      hle _ (List.mem_cons_self _ _)
    constructor
    · rcases List.mem_cons.mp hm with h | h
      · by_cases hts : strLt t s = true
        · simp only [hts, if_true] at h ⊢
          rw [h]
          exact List.mem_cons_of_mem _ (List.mem_cons_self _ _)
        · simp only [Bool.not_eq_true] at hts
          simp only [hts, Bool.false_eq_true, if_false] at h ⊢
          rw [h]
          exact List.mem_cons_self _ _
      · exact List.mem_cons_of_mem _ (List.mem_cons_of_mem _ h)
    · intro e he
      rcases List.mem_cons.mp he with he | he
      · -- e is the initial accumulator s
        rw [he]
        by_cases hts : strLt t s = true
        · -- the accumulator became t; from t < s, s < result would give t < result
          have htm := hs'
          simp only [hts, if_true] at htm ⊢
          cases hem : strLt s (ts.foldl (fun acc u => if strLt u acc then u else acc) t) with
          | false => rfl
          | true => exact absurd (strLt_trans hts hem) (by simp [htm])
        · simp only [Bool.not_eq_true] at hts
          simpa [hts] using hs'
      · rcases List.mem_cons.mp he with he | he
        · -- e is the newly folded element t
          rw [he]
          by_cases hts : strLt t s = true
          · simpa [hts] using hs'
          · simp only [Bool.not_eq_true] at hts
            have hsm := hs'
            simp only [hts, Bool.false_eq_true, if_false] at hsm ⊢
            cases hem : strLt t (ts.foldl (fun acc u => if strLt u acc then u else acc) s) with
            | false => rfl
            | true =>
              rcases strLt_trichotomy s t with h1 | h1 | h1
              · exact absurd (strLt_trans h1 hem) (by simp [hsm])
              · simp [h1] at hts
              · rw [← strLt_congr_left h1] at hem
                simp [hem] at hsm
        · exact hle _ (List.mem_cons_of_mem _ he)

theorem pyMin_eq_none_iff (l : List String) : pyMin l = none ↔ l = [] := by
  cases l <;> simp [pyMin]

theorem pyMin_spec {l : List String} {m : String} (h : pyMin l = some m) :
    m ∈ l ∧ ∀ e ∈ l, strLt e m = false := by
  cases l with
  | nil => simp [pyMin] at h
  | cons s rest =>
    simp only [pyMin, Option.some_inj] at h
    obtain ⟨hm, hle⟩ := pyMinFold_spec rest s
    subst h
    exact ⟨hm, hle⟩

/-! ### Endpoint resolution -/

theorem endpointsOf_eq_filterMap (l : List Component) :
    endpointsOf l = l.filterMap get_endpoint := by
  induction l with
  | nil => rfl
  | cons c cs ih =>
    simp only [endpointsOf, List.filterMap_cons]
    cases get_endpoint c <;> simp [ih]

theorem get_endpoint_none_iff (c : Component) :
    get_endpoint c = none ↔ flatAtoms c = [] := by
  refine componentInd (P := fun c => (get_endpoint c = none ↔ flatAtoms c = []))
    (Q := fun l => (endpointFromEnd l = none ↔ flatAtomsL l = []) ∧
      (endpointsOf l = [] ↔ flatAtomsL l = []))
    ?_ ?_ ?_ ?_ ?_ c
  · intro s
    simp [get_endpoint, flatAtoms]
  · intro l hQ
    simpa [get_endpoint, flatAtoms] using hQ.1
  · intro l hQ
    simp only [get_endpoint, flatAtoms, pyMin_eq_none_iff]
    exact hQ.2
  · constructor <;> simp [endpointFromEnd, endpointsOf, flatAtomsL]
  · intro c cs hP hQ
    constructor
    · simp only [endpointFromEnd, flatAtomsL]
      cases h : endpointFromEnd cs with
      | some e =>
        have : flatAtomsL cs ≠ [] := by
          intro hnil
          rw [hQ.1.mpr hnil] at h
          exact Option.noConfusion h
        simp [this]
      | none =>
        rw [List.append_eq_nil]
        simp only [hP, hQ.1.mp h, and_true]
    · simp only [endpointsOf, flatAtomsL]
      cases h : get_endpoint c with
      | some e =>
        have : flatAtoms c ≠ [] := by
          intro hnil
          rw [hP.mpr hnil] at h
          exact Option.noConfusion h
        simp [this]
      | none =>
        rw [List.append_eq_nil]
        simp only [hQ.2, hP.mp h, true_and]

/-- Claim C7: `get_endpoint` fails (the raised `ValueError`, which the spec
names `EmptyStructureError`) exactly on structures with no resolvable
endpoint - an empty `Series`, an empty `Parallel`, or a container all of
whose descendants are empty, i.e. exactly the structures containing no atom;
on an atom it always returns the atom itself and never fails. -/
theorem claim_C7 :
    (∀ c : Component, (get_endpoint c = none ↔ flatAtoms c = [])) ∧
    (∀ s : String, get_endpoint (.atom s) = some s) :=
  ⟨get_endpoint_none_iff, fun _ => rfl⟩

/-- Claim C6: for a `Parallel` all of whose members have a resolvable
endpoint, `get_endpoint` returns the lexicographically smallest member
endpoint (no member endpoint is strictly below the result, and the result is
one of them); in particular it returns the endpoint of a member, and on the
parallel of atoms `"B"`, `"A"` it returns `"A"`.  Determinism across
repeated calls holds because the model is a pure function of its input. -/
theorem claim_C6 :
    (∀ l : List Component, l ≠ [] → (∀ c ∈ l, (get_endpoint c).isSome) →
      ∃ m, get_endpoint (.par l) = some m ∧ m ∈ l.filterMap get_endpoint ∧
        ∀ e ∈ l.filterMap get_endpoint, strLt e m = false) ∧
    get_endpoint (parallel [.atom "B", .atom "A"]) = some "A" := by
  constructor
  · intro l hne hsome
    have hnil : l.filterMap get_endpoint ≠ [] := by
      cases l with
      | nil => exact absurd rfl hne
      | cons c cs =>
        have := hsome c (List.mem_cons_self _ _)
        cases h : get_endpoint c with
        | none => rw [h] at this; simp at this
        | some e => simp [List.filterMap_cons, h]
    have : get_endpoint (.par l) = pyMin (l.filterMap get_endpoint) := by
      simp [get_endpoint, endpointsOf_eq_filterMap]
    cases hmin : pyMin (l.filterMap get_endpoint) with
    | none => exact absurd ((pyMin_eq_none_iff _).mp hmin) hnil
    | some m =>
      obtain ⟨hmem, hle⟩ := pyMin_spec hmin
      exact ⟨m, by rw [this, hmin], hmem, hle⟩
  · rfl

/-- Claim C6 witness: the general statement applied to the parallel of the
atoms `"B"` and `"A"`. -/
theorem claim_C6_witness :
    ∃ m, get_endpoint (.par [.atom "B", .atom "A"]) = some m ∧
      m ∈ [Component.atom "B", Component.atom "A"].filterMap get_endpoint ∧
      ∀ e ∈ [Component.atom "B", Component.atom "A"].filterMap get_endpoint,
        strLt e m = false :=
  claim_C6.1 [.atom "B", .atom "A"] (by simp) (by
    intro c hc
    simp only [List.mem_cons, List.not_mem_nil, or_false] at hc
    rcases hc with rfl | rfl <;> rfl)

/-! ### The concrete driver examples -/

/-- Claim C9: on the empty pipeline, `add(series(), step="A")` returns the
single instruction `InsertParallel(after=None, step="A")` and the singleton
series as solution. -/
theorem claim_C9 :
    add (series []) "A" [] [] =
      some { instructions := [.InsertParallel none "A"],
             solution := series [.atom "A"] } := rfl

/-- Claim C8: `add(series("A","B"), step="C", prerequisites={"A"})` returns
`series("A", parallel("B","C"))` with the single instruction
`InsertParallel(after="A", step="C")`. -/
theorem claim_C8 :
    add (series [.atom "A", .atom "B"]) "C" ["A"] [] =
      some { instructions := [.InsertParallel (some "A") "C"],
             solution := series [.atom "A", parallel [.atom "B", .atom "C"]] } := rfl

/-- Claim C3: `add(series(parallel("A","B")), step="C", prerequisites={"A"},
postrequisites={"B"})` returns `series("A","C","B")` and exactly the three
`InsertSuccessor` instructions anchoring `"A"` on `None` and then `"B"` and
`"C"` on `"A"`. -/
theorem claim_C3 :
    add (series [parallel [.atom "A", .atom "B"]]) "C" ["A"] ["B"] =
      some { instructions := [.InsertSuccessor none "A",
                              .InsertSuccessor (some "A") "B",
                              .InsertSuccessor (some "A") "C"],
             solution := series [.atom "A", .atom "C", .atom "B"] } := rfl

/-! ### Series merge (claim C5) -/

/-- Claim C5: in the series merge of two sibling partitions, when the later
partition has a prerequisite zone the merged prerequisite zone is the
concatenation of the earlier partition's three zones (in order) followed by
the later prerequisite zone, while the nondependent and postrequisite zones
are exactly the later partition's; and in every merge case the merged
`top_ranked_endpoint` is the later partition's. -/
theorem claim_C5 :
    (∀ p q : Partition, q.prerequisite_component.isSome →
      op_series_merge_partitions p q =
        { prerequisite_component := concatC [p.prerequisite_component,
            p.nondependent_component, p.postrequisite_component,
            q.prerequisite_component]
          nondependent_component := q.nondependent_component
          postrequisite_component := q.postrequisite_component
          top_ranked_endpoint := q.top_ranked_endpoint }) ∧
    (∀ p q : Partition,
      (op_series_merge_partitions p q).top_ranked_endpoint =
        q.top_ranked_endpoint) := by
  constructor
  · intro p q h
    simp [op_series_merge_partitions, h]
  · intro p q
    simp only [op_series_merge_partitions]
    split
    · rfl
    · split
      · rfl
      · rfl

/-- Claim C5 witness: the general statement applied at concrete partitions
with a prerequisite-bearing later sibling. -/
theorem claim_C5_witness :
    op_series_merge_partitions
      { prerequisite_component := some (.atom "A"),
        nondependent_component := some (.atom "X"),
        top_ranked_endpoint := "A" }
      { prerequisite_component := some (.atom "B"), top_ranked_endpoint := "B" } =
    { prerequisite_component := concatC [some (.atom "A"), some (.atom "X"),
        none, some (.atom "B")]
      nondependent_component := none
      postrequisite_component := none
      top_ranked_endpoint := "B" } :=
  claim_C5.1
    { prerequisite_component := some (.atom "A"),
      nondependent_component := some (.atom "X"),
      top_ranked_endpoint := "A" }
    { prerequisite_component := some (.atom "B"), top_ranked_endpoint := "B" }
    rfl

/-! ### Counterexamples fixed by tracing the source -/

/-- Claim C1 counterexample: with empty prerequisite and postrequisite sets
on `series("A","B")`, the fallback inserts the new step `"C"` in parallel
with the FIRST top-level element (`root[idx + 1]` with `idx = -1` is
`root[0]`), giving `series(parallel("A","C"), "B")`, and not in parallel
with the last element as the claim states (`series("A", parallel("B","C"))`
is not the solution, under the containers' own order-insensitive equality). -/
theorem claim_C1_counterexample :
    (add (series [.atom "A", .atom "B"]) "C" [] []).map WeldResult.solution =
      some (series [parallel [.atom "A", .atom "C"], .atom "B"]) ∧
    ceq (series [parallel [.atom "A", .atom "C"], .atom "B"])
      (series [.atom "A", parallel [.atom "B", .atom "C"]]) = false ∧
    flatAtoms (series [parallel [.atom "A", .atom "C"], .atom "B"]) =
      ["A", "C", "B"] :=
  ⟨rfl, rfl, rfl⟩

/-- Claim C4 counterexample: a merged prerequisite zone of `Parallel` shape
(here the union of the two prerequisite atoms `"A"` and `"B"`) emits NO
instructions - `_get_instructions_insert_successor` returns `[]` for a
`Parallel` (the source's TODO branch) - so the only instruction of this
merge is the one for the postrequisite atom `"C"`, anchored on the zone's
endpoint `"A"`; the claim would require `InsertSuccessor` instructions for
the steps `"A"` and `"B"` of the non-empty prerequisite zone. -/
theorem claim_C4_counterexample :
    parallel_merge_partitions
      [{ prerequisite_component := some (.atom "A"), top_ranked_endpoint := "A" },
       { prerequisite_component := some (.atom "B"), top_ranked_endpoint := "B" },
       { postrequisite_component := some (.atom "C"), top_ranked_endpoint := "C" }]
      none =
    some ({ prerequisite_component := some (.par [.atom "A", .atom "B"])
            nondependent_component := none
            postrequisite_component := some (.atom "C")
            top_ranked_endpoint := "C" },
      [.InsertSuccessor (some "A") "C"]) := rfl

/-! ### The mutation claim, settled on the store-based interpreter

The initial store below encodes the caller's pipeline
`series("A", parallel("B", series("C", "D")))` as CPython holds it:
address 0 is the inner `series("C","D")`, address 1 the
`parallel("B", <0>)`, address 2 the root `series("A", <1>)`. -/

theorem claim_C2_counterexample_store_before :
    decode 100
      [HNode.ser [.str "C", .str "D"], HNode.par [.str "B", .ref 0],
       HNode.ser [.str "A", .ref 1]] (.ref 2) =
      some (Component.ser [.atom "A",
        .par [.atom "B", .ser [.atom "C", .atom "D"]]]) := rfl

/-- Claim C2 counterexample: running
`add(series("A", parallel("B", series("C","D"))), step="E",
prerequisites={"C"})` over the explicit store mutates the caller's pipeline
object in place - after the call, reading the pipeline back from address 2
gives `series("A", parallel("B", series("C", parallel("D","E"))))`, which is
not equal (under the containers' own equality) to its value before the
call: the partition result shares the inner series object with the caller,
and `_insert_before_postrequisites` rewrites that object's `root` list. -/
theorem claim_C2_counterexample :
    ((hAdd 100
        [HNode.ser [.str "C", .str "D"], HNode.par [.str "B", .ref 0],
         HNode.ser [.str "A", .ref 1]] 2 "E" ["C"] []).map
      (fun r => decode 100 r.2.2 (.ref 2))) =
      some (some (Component.ser [.atom "A",
        .par [.atom "B", .ser [.atom "C", .par [.atom "D", .atom "E"]]]])) ∧
    ceq
      (Component.ser [.atom "A",
        .par [.atom "B", .ser [.atom "C", .par [.atom "D", .atom "E"]]]])
      (Component.ser [.atom "A",
        .par [.atom "B", .ser [.atom "C", .atom "D"]]]) = false :=
  ⟨rfl, rfl⟩

/-- Claim C2 as amended: `add` may visibly mutate the caller-supplied
pipeline whenever the partitioned structure shares substructure with it; at
the counterexample input the caller's pipeline object afterwards holds
exactly the returned solution (the instruction list and solution themselves
are as the engine intends), while the empty-pipeline path leaves the
caller's object untouched. -/
theorem claim_C2_amended :
    ((hAdd 100
        [HNode.ser [.str "C", .str "D"], HNode.par [.str "B", .ref 0],
         HNode.ser [.str "A", .ref 1]] 2 "E" ["C"] []).map
      (fun r => (r.1, decode 100 r.2.2 r.2.1, decode 100 r.2.2 (.ref 2)))) =
      some ([.InsertParallel (some "C") "E"],
        some (Component.ser [.atom "A",
          .par [.atom "B", .ser [.atom "C", .par [.atom "D", .atom "E"]]]]),
        some (Component.ser [.atom "A",
          .par [.atom "B", .ser [.atom "C", .par [.atom "D", .atom "E"]]]])) ∧
    ((hAdd 100 [HNode.ser []] 0 "A" [] []).map
      (fun r => decode 100 r.2.2 (.ref 0))) =
      some (some (Component.ser [])) :=
  ⟨rfl, rfl⟩

/-! ### Agreement of the store interpreter and the direct translation

Two of the repository's own test scenarios, run on both models: the
instruction lists coincide and the store solution decodes to the direct
model's solution. -/

theorem models_agree_mixed_parallel :
    (add (series [parallel [.atom "A", .atom "B"]]) "C" ["A"] ["B"]).map
        (fun r => (r.instructions, r.solution)) =
      (hAdd 100 [HNode.par [.str "A", .str "B"], HNode.ser [.ref 0]] 1
          "C" ["A"] ["B"]).bind
        (fun r => (decode 100 r.2.2 r.2.1).map (fun c => (r.1, c))) := rfl

/-! ### Parallel merge chaining (claim C4) -/

theorem lastOr_eq_or (after : Option String) (l : List String) :
    lastOr after l = l.getLast?.or after := by
  simp only [lastOr]
  cases l.getLast? <;> simp

theorem lastOr_append (after : Option String) (xs ys : List String) :
    lastOr after (xs ++ ys) = lastOr (lastOr after xs) ys := by
  simp [lastOr_eq_or, List.getLast?_append, Option.or_assoc]

theorem lastOr_cons (after : Option String) (x : String) (xs : List String) :
    lastOr after (x :: xs) = lastOr (some x) xs := by
  simp [lastOr_eq_or, List.getLast?_cons]
  cases xs.getLast? <;> simp

theorem chain_append (after : Option String) (xs ys : List String) :
    chain after (xs ++ ys) = chain after xs ++ chain (lastOr after xs) ys := by
  induction xs generalizing after with
  | nil => simp [chain, lastOr]
  | cons x xs ih =>
    simp only [List.cons_append, chain]
    rw [show xs.append ys = xs ++ ys from rfl, ih (some x), lastOr_cons]

theorem giis_chain (c : Component) :
    ∀ after : Option String, parFree c = true →
      get_instructions_insert_successor c after =
        (chain after (flatAtoms c), lastOr after (flatAtoms c)) := by
  refine componentInd
    (P := fun c => ∀ after : Option String, parFree c = true →
      get_instructions_insert_successor c after =
        (chain after (flatAtoms c), lastOr after (flatAtoms c)))
    (Q := fun l => ∀ after : Option String, parFreeL l = true →
      giisList l after = (chain after (flatAtomsL l), lastOr after (flatAtomsL l)))
    ?_ ?_ ?_ ?_ ?_ c
  · intro s after _
    simp [get_instructions_insert_successor, flatAtoms, chain, lastOr]
  · intro l hQ after hf
    simp only [parFree] at hf
    simpa [get_instructions_insert_successor, flatAtoms] using hQ after hf
  · intro l _ after hf
    simp [parFree] at hf
  · intro after _
    simp [giisList, flatAtomsL, chain, lastOr]
  · intro c cs hP hQ after hf
    simp only [parFreeL, Bool.and_eq_true] at hf
    simp only [giisList, flatAtomsL]
    rw [hP after hf.1, hQ _ hf.2, chain_append, lastOr_append]

theorem get_endpoint_parFree (c : Component) :
    parFree c = true → get_endpoint c = (flatAtoms c).getLast? := by
  refine componentInd
    (P := fun c => parFree c = true →
      get_endpoint c = (flatAtoms c).getLast?)
    (Q := fun l => parFreeL l = true →
      endpointFromEnd l = (flatAtomsL l).getLast?)
    ?_ ?_ ?_ ?_ ?_ c
  · intro s _
    simp [get_endpoint, flatAtoms]
  · intro l hQ hf
    simp only [parFree] at hf
    simpa [get_endpoint, flatAtoms] using hQ hf
  · intro l _ hf
    simp [parFree] at hf
  · intro _
    simp [endpointFromEnd, flatAtomsL]
  · intro c cs hP hQ hf
    simp only [parFreeL, Bool.and_eq_true] at hf
    simp only [endpointFromEnd, flatAtomsL, List.getLast?_append]
    rw [hQ hf.2, hP hf.1]
    cases h : (flatAtomsL cs).getLast? <;> simp

theorem zone_collapse {l : List Component}
    (h : l = [] ∨ ∃ c, l = [c] ∧ parFree c = true ∧ flatAtoms c ≠ []) :
    collapseSingleton (unionC (l.map some)) = l.head? := by
  rcases h with rfl | ⟨c, rfl, hf, _⟩
  · rfl
  · cases c with
    | atom s => rfl
    | ser items => rfl
    | par items => simp [parFree] at hf

theorem topList_nil_iff (partitions : List Partition)
    (f : Partition → Option Component) :
    ((partitions.filter (fun p => (f p).isSome)).map Partition.top_ranked_endpoint) = []
      ↔ partitions.filterMap f = [] := by
  simp only [List.map_eq_nil_iff, List.filter_eq_nil_iff, List.filterMap_eq_nil_iff,
    Bool.not_eq_true, ← Option.not_isSome_iff_eq_none]

theorem topList_isEmpty (partitions : List Partition)
    (f : Partition → Option Component)
    (L : List Component) (h : partitions.filterMap f = L) :
    ((partitions.filter (fun p => (f p).isSome)).map
      Partition.top_ranked_endpoint).isEmpty = L.isEmpty := by
  rw [Bool.eq_iff_iff]
  simp only [List.isEmpty_iff, topList_nil_iff, h]

theorem getLast_of_ne_nil {l : List String} (h : l ≠ []) :
    ∃ x, l.getLast? = some x := by
  cases hl : l.getLast? with
  | none => exact absurd (List.getLast?_eq_none_iff.mp hl) h
  | some x => exact ⟨x, rfl⟩

theorem giis_chain_general (c : Component) :
    ∀ after : Option String,
      get_instructions_insert_successor c after =
        (chain after (serAtoms c), lastOr after (serAtoms c)) := by
  refine componentInd
    (P := fun c => ∀ after : Option String,
      get_instructions_insert_successor c after =
        (chain after (serAtoms c), lastOr after (serAtoms c)))
    (Q := fun l => ∀ after : Option String,
      giisList l after = (chain after (serAtomsL l), lastOr after (serAtomsL l)))
    ?_ ?_ ?_ ?_ ?_ c
  · intro s after
    simp [get_instructions_insert_successor, serAtoms, chain, lastOr]
  · intro l hQ after
    simpa [get_instructions_insert_successor, serAtoms] using hQ after
  · intro l _ after
    simp [get_instructions_insert_successor, serAtoms, chain, lastOr]
  · intro after
    simp [giisList, serAtomsL, chain, lastOr]
  · intro c cs hP hQ after
    simp only [giisList, serAtomsL]
    rw [hP after, hQ _, chain_append, lastOr_append]

theorem endpoint_of_atoms {c : Component} (h : flatAtoms c ≠ []) :
    ∃ e, get_endpoint c = some e := by
  cases he : get_endpoint c with
  | none => exact absurd ((get_endpoint_none_iff c).mp he) h
  | some e => exact ⟨e, rfl⟩

theorem zone_collapse_np {l : List Component}
    (h : l = [] ∨ ∃ c, l = [c] ∧ notPar c = true ∧ flatAtoms c ≠ []) :
    collapseSingleton (unionC (l.map some)) = l.head? := by
  rcases h with rfl | ⟨c, rfl, hf, _⟩
  · rfl
  · cases c with
    | atom s => rfl
    | ser items => rfl
    | par items => simp [notPar] at hf

/-- Claim C4 as amended: in parallel merge, when each zone is contributed by
at most one partition and that component is not itself a `Parallel` (and has
at least one step), the emitted instructions serialize the three zones in the
order prerequisite / nondependent / postrequisite: each zone contributes one
`InsertSuccessor` per step reachable without entering a nested `Parallel` -
a `Parallel` anywhere, whether it is the whole zone (the counterexample) or
nested inside a `Series`-shaped zone, emits nothing for its members, the
source's unimplemented TODO branch - and each zone is chained off the
previous zone's `get_endpoint` (which may name a never-chained step inside a
nested `Parallel`), the first off `predecessor`. -/
theorem claim_C4 (partitions : List Partition) (predecessor : Option String)
    (preL nonL postL : List Component)
    (hpre : partitions.filterMap (fun p => p.prerequisite_component) = preL)
    (hnon : partitions.filterMap (fun p => p.nondependent_component) = nonL)
    (hpost : partitions.filterMap (fun p => p.postrequisite_component) = postL)
    (hpreOk : preL = [] ∨ ∃ c, preL = [c] ∧ notPar c = true ∧ flatAtoms c ≠ [])
    (hnonOk : nonL = [] ∨ ∃ c, nonL = [c] ∧ notPar c = true ∧ flatAtoms c ≠ [])
    (hpostOk : postL = [] ∨ ∃ c, postL = [c] ∧ notPar c = true ∧ flatAtoms c ≠ [])
    (hne : preL ≠ [] ∨ nonL ≠ [] ∨ postL ≠ []) :
    ∃ t, parallel_merge_partitions partitions predecessor =
      some ({ prerequisite_component := preL.head?
              nondependent_component := nonL.head?
              postrequisite_component := postL.head?
              top_ranked_endpoint := t },
        chain predecessor (zoneSer preL.head?) ++
        chain (anchorAfter predecessor preL.head?) (zoneSer nonL.head?) ++
        chain (anchorAfter (anchorAfter predecessor preL.head?) nonL.head?)
          (zoneSer postL.head?)) := by
  have hcp := zone_collapse_np hpreOk
  have hcn := zone_collapse_np hnonOk
  have hcq := zone_collapse_np hpostOk
  have hTP := topList_isEmpty partitions (fun p => p.postrequisite_component) postL hpost
  have hTN := topList_isEmpty partitions (fun p => p.nondependent_component) nonL hnon
  have hTPre := topList_isEmpty partitions (fun p => p.prerequisite_component) preL hpre
  simp only [parallel_merge_partitions, hpre, hnon, hpost, hcp, hcn, hcq,
    hTP, hTN, hTPre]
  rcases hpreOk with rfl | ⟨cp, rfl, hfp, hap⟩ <;>
    rcases hnonOk with rfl | ⟨cn, rfl, hfn, han⟩ <;>
    rcases hpostOk with rfl | ⟨cq, rfl, hfq, haq⟩
  · simp at hne
  · obtain ⟨e0, es, he⟩ := List.exists_cons_of_ne_nil
      (List.isEmpty_eq_false.mp (by rw [hTP]; rfl))
    rw [he]
    obtain ⟨eq0, heq0⟩ := endpoint_of_atoms haq
    exact ⟨es.foldl (fun acc t => if strLt t acc then t else acc) e0,
      by simp [pyMin, zoneSer, anchorAfter, chain, lastOr,
        giis_chain_general, heq0]⟩
  · obtain ⟨e0, es, he⟩ := List.exists_cons_of_ne_nil
      (List.isEmpty_eq_false.mp (by rw [hTN]; rfl))
    rw [he]
    obtain ⟨en0, hen0⟩ := endpoint_of_atoms han
    exact ⟨es.foldl (fun acc t => if strLt t acc then t else acc) e0,
      by simp [pyMin, zoneSer, anchorAfter, chain, lastOr,
        giis_chain_general, hen0]⟩
  · obtain ⟨e0, es, he⟩ := List.exists_cons_of_ne_nil
      (List.isEmpty_eq_false.mp (by rw [hTP]; rfl))
    rw [he]
    obtain ⟨en0, hen0⟩ := endpoint_of_atoms han
    obtain ⟨eq0, heq0⟩ := endpoint_of_atoms haq
    exact ⟨es.foldl (fun acc t => if strLt t acc then t else acc) e0,
      by simp [pyMin, zoneSer, anchorAfter, chain, lastOr,
        giis_chain_general, hen0, heq0]⟩
  · obtain ⟨e0, es, he⟩ := List.exists_cons_of_ne_nil
      (List.isEmpty_eq_false.mp (by rw [hTPre]; rfl))
    rw [he]
    obtain ⟨ep0, hep0⟩ := endpoint_of_atoms hap
    exact ⟨es.foldl (fun acc t => if strLt t acc then t else acc) e0,
      by simp [pyMin, zoneSer, anchorAfter, chain, lastOr,
        giis_chain_general, hep0]⟩
  · obtain ⟨e0, es, he⟩ := List.exists_cons_of_ne_nil
      (List.isEmpty_eq_false.mp (by rw [hTP]; rfl))
    rw [he]
    obtain ⟨ep0, hep0⟩ := endpoint_of_atoms hap
    obtain ⟨eq0, heq0⟩ := endpoint_of_atoms haq
    exact ⟨es.foldl (fun acc t => if strLt t acc then t else acc) e0,
      by simp [pyMin, zoneSer, anchorAfter, chain, lastOr,
        giis_chain_general, hep0, heq0]⟩
  · obtain ⟨e0, es, he⟩ := List.exists_cons_of_ne_nil
      (List.isEmpty_eq_false.mp (by rw [hTN]; rfl))
    rw [he]
    obtain ⟨ep0, hep0⟩ := endpoint_of_atoms hap
    obtain ⟨en0, hen0⟩ := endpoint_of_atoms han
    exact ⟨es.foldl (fun acc t => if strLt t acc then t else acc) e0,
      by simp [pyMin, zoneSer, anchorAfter, chain, lastOr,
        giis_chain_general, hep0, hen0]⟩
  · obtain ⟨e0, es, he⟩ := List.exists_cons_of_ne_nil
      (List.isEmpty_eq_false.mp (by rw [hTP]; rfl))
    rw [he]
    obtain ⟨ep0, hep0⟩ := endpoint_of_atoms hap
    obtain ⟨en0, hen0⟩ := endpoint_of_atoms han
    obtain ⟨eq0, heq0⟩ := endpoint_of_atoms haq
    exact ⟨es.foldl (fun acc t => if strLt t acc then t else acc) e0,
      by simp [pyMin, zoneSer, anchorAfter, chain, lastOr,
        giis_chain_general, hep0, hen0, heq0]⟩

theorem claim_C4_witness :
    ∃ t, parallel_merge_partitions
      [{ prerequisite_component :=
           some (.ser [.par [.atom "A", .atom "B"], .atom "C"]),
         postrequisite_component := some (.atom "D"),
         top_ranked_endpoint := "A" }]
      none =
      some ({ prerequisite_component :=
                some (Component.ser [.par [.atom "A", .atom "B"], .atom "C"])
              nondependent_component := none
              postrequisite_component := some (.atom "D")
              top_ranked_endpoint := t },
        [BaseOperation.InsertSuccessor none "C",
         BaseOperation.InsertSuccessor (some "C") "D"]) := by
  obtain ⟨t, ht⟩ := claim_C4
    [{ prerequisite_component :=
         some (.ser [.par [.atom "A", .atom "B"], .atom "C"]),
       postrequisite_component := some (.atom "D"),
       top_ranked_endpoint := "A" }]
    none [.ser [.par [.atom "A", .atom "B"], .atom "C"]] [] [.atom "D"]
    rfl rfl rfl
    (Or.inr ⟨_, rfl, rfl, by simp [flatAtoms, flatAtomsL]⟩)
    (Or.inl rfl)
    (Or.inr ⟨_, rfl, rfl, by simp [flatAtoms, flatAtomsL]⟩)
    (Or.inl (by simp))
  refine ⟨t, ?_⟩
  rw [ht]
  rfl

theorem models_agree_multi_level :
    (add (series [.atom "A", parallel [.atom "B",
        series [.atom "C", .atom "D"]]]) "E" ["C"] []).map
        (fun r => (r.instructions, r.solution)) =
      (hAdd 100 [HNode.ser [.str "C", .str "D"], HNode.par [.str "B", .ref 0],
          HNode.ser [.str "A", .ref 1]] 2 "E" ["C"] []).bind
        (fun r => (decode 100 r.2.2 r.2.1).map (fun c => (r.1, c))) := rfl

theorem flatAtomsL_append (l1 l2 : List Component) :
    flatAtomsL (l1 ++ l2) = flatAtomsL l1 ++ flatAtomsL l2 := by
  induction l1 with
  | nil => simp [flatAtomsL]
  | cons c cs ih => simp [flatAtomsL, ih]

theorem mem_flatAtomsL {a : String} {l : List Component} :
    a ∈ flatAtomsL l ↔ ∃ c ∈ l, a ∈ flatAtoms c := by
  induction l with
  | nil => simp [flatAtomsL]
  | cons c cs ih =>
    simp only [flatAtomsL, List.mem_append, ih, List.mem_cons]
    constructor
    · rintro (h | ⟨d, hd, ha⟩)
      · exact ⟨c, Or.inl rfl, h⟩
      · exact ⟨d, Or.inr hd, ha⟩
    · rintro ⟨d, (rfl | hd), ha⟩
      · exact Or.inl ha
      · exact Or.inr ⟨d, hd, ha⟩

theorem dedupCeq_subset {x : Component} {l : List Component}
    (h : x ∈ dedupCeq l) : x ∈ l := by
  induction l with
  | nil => simpa [dedupCeq] using h
  | cons c cs ih =>
    simp only [dedupCeq, List.mem_cons] at h
    rcases h with rfl | h
    · exact List.mem_cons_self _ _
    · exact List.mem_cons_of_mem _ (ih (List.mem_of_mem_filter h))

theorem isEmptyContainer_flatAtoms {c : Component}
    (h : isEmptyContainer c = true) : flatAtoms c = [] := by
  cases c with
  | atom s => simp [isEmptyContainer] at h
  | ser l => cases l with
    | nil => rfl
    | cons x xs => simp [isEmptyContainer] at h
  | par l => cases l with
    | nil => rfl
    | cons x xs => simp [isEmptyContainer] at h

theorem flatAtomsL_filter_nonEmpty (l : List Component) :
    flatAtomsL (l.filter (fun c => !(isEmptyContainer c))) = flatAtomsL l := by
  induction l with
  | nil => rfl
  | cons c cs ih =>
    by_cases h : isEmptyContainer c = true
    · simp [List.filter_cons, h, flatAtomsL, ih, isEmptyContainer_flatAtoms h]
    · simp only [Bool.not_eq_true] at h
      simp [List.filter_cons, h, flatAtomsL, ih]

theorem flatAtoms_series (l : List Component) :
    flatAtoms (series l) = flatAtomsL l := by
  simp [series, flatAtoms, flatAtomsL_filter_nonEmpty]

theorem flatAtoms_parallel_sub {a : String} {l : List Component}
    (h : a ∈ flatAtoms (parallel l)) : a ∈ flatAtomsL l := by
  simp only [parallel, flatAtoms] at h
  obtain ⟨c, hc, ha⟩ := mem_flatAtomsL.mp h
  exact mem_flatAtomsL.mpr ⟨c, dedupCeq_subset hc, ha⟩

theorem concat_fold_atoms (args : List (Option Component)) (acc : List Component) :
    flatAtomsL (args.foldl
      (fun acc c =>
        match c with
        | some (.ser items) => acc ++ items
        | some other => acc ++ [other]
        | none => acc) acc) =
    flatAtomsL acc ++ (args.map zoneAtoms).flatten := by
  induction args generalizing acc with
  | nil => simp [flatAtomsL]
  | cons a rest ih =>
    cases a with
    | none => simp [ih, zoneAtoms]
    | some c =>
      cases c with
      | atom s => simp [ih, zoneAtoms, flatAtomsL_append, flatAtomsL, flatAtoms]
      | ser items => simp [ih, zoneAtoms, flatAtomsL_append, flatAtoms]
      | par items => simp [ih, zoneAtoms, flatAtomsL_append, flatAtomsL, flatAtoms]

theorem concat_atoms {args : List (Option Component)} {c : Component}
    (h : concatC args = some c) :
    flatAtoms c = (args.map zoneAtoms).flatten := by
  simp only [concatC] at h
  split at h
  · exact Option.noConfusion h
  · rw [← Option.some_inj.mp h, flatAtoms_series]
    simpa using concat_fold_atoms args []

theorem union_fold_atoms (args : List (Option Component)) (acc : List Component) :
    flatAtomsL (args.foldl
      (fun acc c =>
        match c with
        | some (.par items) => acc ++ items
        | some other => acc ++ [other]
        | none => acc) acc) =
    flatAtomsL acc ++ (args.map zoneAtoms).flatten := by
  induction args generalizing acc with
  | nil => simp [flatAtomsL]
  | cons a rest ih =>
    cases a with
    | none => simp [ih, zoneAtoms]
    | some c =>
      cases c with
      | atom s => simp [ih, zoneAtoms, flatAtomsL_append, flatAtomsL, flatAtoms]
      | ser items => simp [ih, zoneAtoms, flatAtomsL_append, flatAtomsL, flatAtoms]
      | par items => simp [ih, zoneAtoms, flatAtomsL_append, flatAtoms]

theorem union_atoms_sub {args : List (Option Component)} {c : Component}
    (h : unionC args = some c) {a : String} (ha : a ∈ flatAtoms c) :
    a ∈ (args.map zoneAtoms).flatten := by
  simp only [unionC] at h
  split at h
  · exact Option.noConfusion h
  · rw [← Option.some_inj.mp h] at ha
    have := flatAtoms_parallel_sub ha
    rw [show flatAtomsL (args.foldl
        (fun acc c =>
          match c with
          | some (.par items) => acc ++ items
          | some other => acc ++ [other]
          | none => acc) []) = (args.map zoneAtoms).flatten by
      simpa using union_fold_atoms args []] at this
    exact this

theorem giis_steps (c : Component) :
    ∀ after : Option String,
      ∀ op ∈ (get_instructions_insert_successor c after).1, op.step ∈ flatAtoms c := by
  refine componentInd
    (P := fun c => ∀ after : Option String,
      ∀ op ∈ (get_instructions_insert_successor c after).1, op.step ∈ flatAtoms c)
    (Q := fun l => ∀ after : Option String,
      ∀ op ∈ (giisList l after).1, op.step ∈ flatAtomsL l)
    ?_ ?_ ?_ ?_ ?_ c
  · intro s after op hop
    simp only [get_instructions_insert_successor, List.mem_singleton] at hop
    subst hop
    simp [BaseOperation.step, flatAtoms]
  · intro l hQ after op hop
    simp only [get_instructions_insert_successor] at hop
    exact hQ after op hop
  · intro l _ after op hop
    simp [get_instructions_insert_successor] at hop
  · intro after op hop
    simp [giisList] at hop
  · intro c cs hP hQ after op hop
    rcases hg : get_instructions_insert_successor c after with ⟨ops1, a1⟩
    rcases hgl : giisList cs a1 with ⟨ops2, a2⟩
    simp only [giisList, hg, hgl] at hop
    simp only [flatAtomsL, List.mem_append]
    rcases List.mem_append.mp hop with h | h
    · exact Or.inl (hP after op (by rw [hg]; exact h))
    · exact Or.inr (hQ a1 op (by rw [hgl]; exact h))

theorem zoneAtoms_concatC (args : List (Option Component)) :
    ∀ a ∈ zoneAtoms (concatC args), a ∈ (args.map zoneAtoms).flatten := by
  intro a ha
  cases h : concatC args with
  | none => rw [h] at ha; simp [zoneAtoms] at ha
  | some c =>
    rw [h] at ha
    simp only [zoneAtoms] at ha
    rw [concat_atoms h] at ha
    exact ha

theorem zoneAtoms_matchMerge (x y : Option Component) :
    ∀ a ∈ zoneAtoms (match x, y with
      | none, qc => qc
      | pc, none => pc
      | pc, qc => concatC [pc, qc]),
      a ∈ zoneAtoms x ++ zoneAtoms y := by
  intro a ha
  cases x with
  | none => cases y <;> simpa [zoneAtoms] using ha
  | some c1 =>
    cases y with
    | none => simpa [zoneAtoms] using ha
    | some c2 =>
      have := zoneAtoms_concatC [some c1, some c2] a ha
      simpa [zoneAtoms] using this

theorem opSeriesMerge_atoms (p q : Partition) :
    ∀ a ∈ partitionAtoms (op_series_merge_partitions p q),
      a ∈ partitionAtoms p ++ partitionAtoms q := by
  intro a ha
  simp only [partitionAtoms, List.mem_append, or_assoc] at ha ⊢
  simp only [op_series_merge_partitions] at ha
  split at ha
  · dsimp only at ha
    rcases ha with h | h | h
    · have := zoneAtoms_concatC [p.prerequisite_component, p.nondependent_component,
        p.postrequisite_component, q.prerequisite_component] a h
      simp only [List.map_cons, List.map_nil, List.flatten_cons, List.flatten_nil,
        List.mem_append, List.append_nil, List.mem_nil_iff, or_false, or_assoc] at this
      rcases this with h1 | h1 | h1 | h1
      · exact Or.inl h1
      · exact Or.inr (Or.inl h1)
      · exact Or.inr (Or.inr (Or.inl h1))
      · exact Or.inr (Or.inr (Or.inr (Or.inl h1)))
    · exact Or.inr (Or.inr (Or.inr (Or.inr (Or.inl h))))
    · exact Or.inr (Or.inr (Or.inr (Or.inr (Or.inr h))))
  · split at ha
    · dsimp only at ha
      rcases ha with h | h | h
      · have := zoneAtoms_concatC [p.prerequisite_component,
          q.prerequisite_component] a h
        simp only [List.map_cons, List.map_nil, List.flatten_cons, List.flatten_nil,
          List.mem_append, List.append_nil, List.mem_nil_iff, or_false, or_assoc] at this
        rcases this with h1 | h1
        · exact Or.inl h1
        · exact Or.inr (Or.inr (Or.inr (Or.inl h1)))
      · exact Or.inr (Or.inl h)
      · have := zoneAtoms_concatC [p.postrequisite_component,
          q.nondependent_component, q.postrequisite_component] a h
        simp only [List.map_cons, List.map_nil, List.flatten_cons, List.flatten_nil,
          List.mem_append, List.append_nil, List.mem_nil_iff, or_false, or_assoc] at this
        rcases this with h1 | h1 | h1
        · exact Or.inr (Or.inr (Or.inl h1))
        · exact Or.inr (Or.inr (Or.inr (Or.inr (Or.inl h1))))
        · exact Or.inr (Or.inr (Or.inr (Or.inr (Or.inr h1))))
    · dsimp only at ha
      rcases ha with h | h | h
      · rcases List.mem_append.mp (zoneAtoms_matchMerge p.prerequisite_component
          q.prerequisite_component a h) with h1 | h1
        · exact Or.inl h1
        · exact Or.inr (Or.inr (Or.inr (Or.inl h1)))
      · rcases List.mem_append.mp (zoneAtoms_matchMerge p.nondependent_component
          q.nondependent_component a h) with h1 | h1
        · exact Or.inr (Or.inl h1)
        · exact Or.inr (Or.inr (Or.inr (Or.inr (Or.inl h1))))
      · rcases List.mem_append.mp (zoneAtoms_matchMerge p.postrequisite_component
          q.postrequisite_component a h) with h1 | h1
        · exact Or.inr (Or.inr (Or.inl h1))
        · exact Or.inr (Or.inr (Or.inr (Or.inr (Or.inr h1))))

theorem zoneAtoms_of_zone_mem {parts : List Partition}
    {f : Partition → Option Component}
    (hf : ∀ pt, zoneAtoms (f pt) ⊆ partitionAtoms pt)
    {c : Component}
    (h : collapseSingleton (unionC ((parts.filterMap f).map some)) = some c) :
    ∀ a ∈ flatAtoms c, a ∈ (parts.map partitionAtoms).flatten := by
  intro a ha
  have hmem : ∀ d, unionC ((parts.filterMap f).map some) = some d →
      ∀ b ∈ flatAtoms d, b ∈ (parts.map partitionAtoms).flatten := by
    intro d hd b hb
    have := union_atoms_sub hd hb
    simp only [List.map_map, List.mem_flatten, List.mem_map,
      Function.comp] at this
    obtain ⟨l, ⟨c', hc', rfl⟩, hbl⟩ := this
    obtain ⟨pt, hpt, hfpt⟩ := List.mem_filterMap.mp hc'
    rw [List.mem_flatten]
    refine ⟨partitionAtoms pt, List.mem_map_of_mem _ hpt, ?_⟩
    exact hf pt (by rw [hfpt]; exact hbl)
  cases hu : unionC ((parts.filterMap f).map some) with
  | none => rw [hu] at h; simp [collapseSingleton] at h
  | some u =>
    rw [hu] at h
    cases u with
    | atom s => simp only [collapseSingleton] at h
                exact hmem _ hu a (by rw [← Option.some_inj.mp h] at ha; exact ha)
    | ser items => simp only [collapseSingleton] at h
                   exact hmem _ hu a (by rw [← Option.some_inj.mp h] at ha; exact ha)
    | par items =>
      match items, h with
      | [x], h =>
        have hx : c = x := by simpa [collapseSingleton] using h.symm
        subst hx
        refine hmem _ hu a ?_
        simp [flatAtoms, flatAtomsL, ha]
      | [], h =>
        have : c = Component.par [] := by simpa [collapseSingleton] using h.symm
        subst this
        simp [flatAtoms, flatAtomsL] at ha
      | x :: y :: rest, h =>
        have : c = Component.par (x :: y :: rest) := by
          simpa [collapseSingleton] using h.symm
        subst this
        exact hmem _ hu a ha

theorem zoneAtoms_pre_sub (pt : Partition) :
    zoneAtoms pt.prerequisite_component ⊆ partitionAtoms pt := by
  intro a ha
  simp only [partitionAtoms, List.mem_append]
  exact Or.inl (Or.inl ha)

theorem zoneAtoms_non_sub (pt : Partition) :
    zoneAtoms pt.nondependent_component ⊆ partitionAtoms pt := by
  intro a ha
  simp only [partitionAtoms, List.mem_append]
  exact Or.inl (Or.inr ha)

theorem zoneAtoms_post_sub (pt : Partition) :
    zoneAtoms pt.postrequisite_component ⊆ partitionAtoms pt := by
  intro a ha
  simp only [partitionAtoms, List.mem_append]
  exact Or.inr ha

theorem pmp_atoms {parts : List Partition} {pred : Option String}
    {p : Partition} {ops : List BaseOperation}
    (h : parallel_merge_partitions parts pred = some (p, ops)) :
    (∀ op ∈ ops, op.step ∈ (parts.map partitionAtoms).flatten) ∧
    (∀ a ∈ partitionAtoms p, a ∈ (parts.map partitionAtoms).flatten) := by
  simp only [parallel_merge_partitions] at h
  split at h
  · exact Option.noConfusion h
  · split at h
    case _ i1 i2 i3 hi1 hi2 hi3 =>
      rw [Option.some_inj] at h
      obtain ⟨hp, hops⟩ := Prod.mk.injEq .. ▸ h
      subst hops
      constructor
      · intro op hop
        rcases List.mem_append.mp hop with hop12 | hop3
        · rcases List.mem_append.mp hop12 with hop1 | hop2
          · -- op comes from the prerequisite zone chain
            split at hi1
            case _ c heq =>
              rw [Option.some_inj] at hi1
              subst hi1
              exact zoneAtoms_of_zone_mem zoneAtoms_pre_sub heq _
                (giis_steps c pred op hop1)
            case _ heq =>
              rw [Option.some_inj] at hi1
              subst hi1
              simp at hop1
          · -- op comes from the nondependent zone chain
            split at hi2
            case _ c heq =>
              split at hi2
              case _ aa heq2 =>
                rw [Option.some_inj] at hi2
                subst hi2
                exact zoneAtoms_of_zone_mem zoneAtoms_non_sub heq _
                  (giis_steps c aa op hop2)
              case _ => exact Option.noConfusion hi2
            case _ heq =>
              rw [Option.some_inj] at hi2
              subst hi2
              simp at hop2
        · -- op comes from the postrequisite zone chain
          split at hi3
          case _ c heq =>
            split at hi3
            case _ aa heq2 =>
              rw [Option.some_inj] at hi3
              subst hi3
              exact zoneAtoms_of_zone_mem zoneAtoms_post_sub heq _
                (giis_steps c aa op hop3)
            case _ => exact Option.noConfusion hi3
          case _ heq =>
            rw [Option.some_inj] at hi3
            subst hi3
            simp at hop3
      · intro a ha
        rw [← hp] at ha
        simp only [partitionAtoms, List.mem_append] at ha
        rcases ha with (ha | ha) | ha
        · cases hz : collapseSingleton (unionC (List.map some
              (List.filterMap (fun p => p.prerequisite_component) parts))) with
          | none => rw [hz] at ha; simp [zoneAtoms] at ha
          | some c =>
            rw [hz] at ha
            exact zoneAtoms_of_zone_mem zoneAtoms_pre_sub hz _ ha
        · cases hz : collapseSingleton (unionC (List.map some
              (List.filterMap (fun p => p.nondependent_component) parts))) with
          | none => rw [hz] at ha; simp [zoneAtoms] at ha
          | some c =>
            rw [hz] at ha
            exact zoneAtoms_of_zone_mem zoneAtoms_non_sub hz _ ha
        · cases hz : collapseSingleton (unionC (List.map some
              (List.filterMap (fun p => p.postrequisite_component) parts))) with
          | none => rw [hz] at ha; simp [zoneAtoms] at ha
          | some c =>
            rw [hz] at ha
            exact zoneAtoms_of_zone_mem zoneAtoms_post_sub hz _ ha
    · exact Option.noConfusion h


theorem mem_foldr_append {α : Type} {op : α}
    {results : List (Partition × List α)} :
    op ∈ results.foldr (fun r acc => r.2 ++ acc) [] ↔
      ∃ r ∈ results, op ∈ r.2 := by
  induction results with
  | nil => simp
  | cons r rs ih =>
    simp only [List.foldr_cons, List.mem_append, ih, List.mem_cons]
    constructor
    · rintro (h | ⟨r', hr', h⟩)
      · exact ⟨r, Or.inl rfl, h⟩
      · exact ⟨r', Or.inr hr', h⟩
    · rintro ⟨r', (rfl | hr'), h⟩
      · exact Or.inl h
      · exact Or.inr ⟨r', hr', h⟩

theorem foldl_merge_atoms (rest : List Partition) :
    ∀ p : Partition, ∀ a ∈ partitionAtoms (rest.foldl op_series_merge_partitions p),
      a ∈ partitionAtoms p ∨ ∃ q ∈ rest, a ∈ partitionAtoms q := by
  induction rest with
  | nil => intro p a ha; exact Or.inl ha
  | cons q qs ih =>
    intro p a ha
    simp only [List.foldl_cons] at ha
    rcases ih (op_series_merge_partitions p q) a ha with h | ⟨q', hq', h⟩
    · rcases List.mem_append.mp (opSeriesMerge_atoms p q a h) with h1 | h1
      · exact Or.inl h1
      · exact Or.inr ⟨q, List.mem_cons_self _ _, h1⟩
    · exact Or.inr ⟨q', List.mem_cons_of_mem _ hq', h⟩

theorem wrap_zoneAtoms (x : Option Component) :
    zoneAtoms (x.map (fun c => series [c])) = zoneAtoms x := by
  cases x with
  | none => rfl
  | some c =>
    show zoneAtoms (some (series [c])) = zoneAtoms (some c)
    simp only [zoneAtoms]
    rw [flatAtoms_series]
    simp [flatAtomsL]

theorem partition_atoms (c : Component) :
    ∀ pred pre post p ops,
      partition_component c pred pre post = some (p, ops) →
      (∀ op ∈ ops, op.step ∈ flatAtoms c) ∧
      (∀ a ∈ partitionAtoms p, a ∈ flatAtoms c) := by
  refine componentInd
    (P := fun c => ∀ pred pre post p ops,
      partition_component c pred pre post = some (p, ops) →
      (∀ op ∈ ops, op.step ∈ flatAtoms c) ∧
      (∀ a ∈ partitionAtoms p, a ∈ flatAtoms c))
    (Q := fun l =>
      (∀ pred pre post results,
        partitionMembers l pred pre post = some results →
        ∀ r ∈ results, (∀ op ∈ r.2, op.step ∈ flatAtomsL l) ∧
          (∀ a ∈ partitionAtoms r.1, a ∈ flatAtomsL l)) ∧
      (∀ pred pre post ps ops,
        get_series_partitions l pred pre post = some (ps, ops) →
        (∀ op ∈ ops, op.step ∈ flatAtomsL l) ∧
        (∀ p ∈ ps, ∀ a ∈ partitionAtoms p, a ∈ flatAtomsL l)))
    ?_ ?_ ?_ ?_ ?_ c
  · -- atoms
    intro s pred pre post p ops h
    simp only [partition_component] at h
    have handle : ∀ pp : Partition,
        some (pp, ([] : List BaseOperation)) = some (p, ops) →
        (∀ a ∈ partitionAtoms pp, a ∈ flatAtoms (Component.atom s)) →
        (∀ op ∈ ops, op.step ∈ flatAtoms (Component.atom s)) ∧
        (∀ a ∈ partitionAtoms p, a ∈ flatAtoms (Component.atom s)) := by
      intro pp hh hsub
      rw [Option.some_inj] at hh
      obtain ⟨hp, hops⟩ := Prod.mk.injEq .. ▸ hh
      subst hops
      exact ⟨by simp, by rw [← hp]; exact hsub⟩
    split at h
    · refine handle _ h ?_
      intro a ha
      simpa [partitionAtoms, zoneAtoms, flatAtoms] using ha
    · split at h
      · refine handle _ h ?_
        intro a ha
        simpa [partitionAtoms, zoneAtoms, flatAtoms] using ha
      · refine handle _ h ?_
        intro a ha
        simpa [partitionAtoms, zoneAtoms, flatAtoms] using ha
  · -- series
    intro l hQ pred pre post p ops h
    simp only [partition_component] at h
    split at h
    · exact Option.noConfusion h
    case _ partitions instructions heq =>
      split at h
      · exact Option.noConfusion h
      case _ p0 rest =>
        obtain ⟨hops, hps⟩ := hQ.2 _ _ _ _ _ heq
        split at h <;> rw [Option.some_inj] at h <;>
          obtain ⟨hp, hops2⟩ := Prod.mk.injEq .. ▸ h <;> subst hops2
        · constructor
          · intro op hop
            exact hops op hop
          · intro a ha
            rw [← hp] at ha
            simp only [partitionAtoms, List.mem_append, wrap_zoneAtoms] at ha
            refine hps p0 (List.mem_cons_self _ _) a ?_
            simp only [partitionAtoms, List.mem_append]
            exact ha
        · constructor
          · intro op hop
            exact hops op hop
          · intro a ha
            rw [← hp] at ha
            rcases foldl_merge_atoms rest p0 a ha with h1 | ⟨q, hq, h1⟩
            · exact hps p0 (List.mem_cons_self _ _) a h1
            · exact hps q (List.mem_cons_of_mem _ hq) a h1
  · -- parallel
    intro l hQ pred pre post p ops h
    simp only [partition_component] at h
    split at h
    · exact Option.noConfusion h
    case _ results heq =>
      have hmembers := hQ.1 _ _ _ _ heq
      have hflat : ∀ b ∈ ((results.map Prod.fst).map partitionAtoms).flatten,
          b ∈ flatAtomsL l := by
        intro b hb
        rw [List.mem_flatten] at hb
        obtain ⟨lst, hlst, hbl⟩ := hb
        simp only [List.map_map, List.mem_map, Function.comp] at hlst
        obtain ⟨r, hr, rfl⟩ := hlst
        exact (hmembers r hr).2 b hbl
      split at h
      · -- mixed prerequisites and postrequisites: parallel merge
        obtain ⟨hops, hpa⟩ := pmp_atoms h
        exact ⟨fun op hop => hflat _ (hops op hop),
          fun a ha => hflat _ (hpa a ha)⟩
      · split at h
        · exact Option.noConfusion h
        · have hinstr : ∀ op ∈ results.foldr
              (fun r acc => r.2 ++ acc) ([] : List BaseOperation),
              op.step ∈ flatAtomsL l := by
            intro op hop
            obtain ⟨r, hr, h2⟩ := mem_foldr_append.mp hop
            exact (hmembers r hr).1 op h2
          split at h <;> [skip; split at h] <;> rw [Option.some_inj] at h <;>
            obtain ⟨hp, hops2⟩ := Prod.mk.injEq .. ▸ h <;> subst hops2 <;>
            refine ⟨hinstr, ?_⟩ <;> intro a ha <;> rw [← hp] at ha <;>
            simpa [partitionAtoms, zoneAtoms, flatAtoms] using ha
  · -- empty list
    constructor
    · intro pred pre post results h
      simp only [partitionMembers, Option.some_inj] at h
      subst h
      intro r hr
      simp at hr
    · intro pred pre post ps ops h
      simp only [get_series_partitions, Option.some_inj] at h
      obtain ⟨hps, hops⟩ := Prod.mk.injEq .. ▸ h.symm
      subst hps
      subst hops
      constructor
      · intro op hop
        simp at hop
      · intro q hq
        simp at hq
  · -- cons
    intro c cs hP hQ
    constructor
    · intro pred pre post results h
      simp only [partitionMembers] at h
      split at h
      · exact Option.noConfusion h
      case _ r0 heq0 =>
        split at h
        · exact Option.noConfusion h
        case _ rs heqs =>
          rw [Option.some_inj] at h
          subst h
          intro r hr
          rcases List.mem_cons.mp hr with rfl | hr
          · obtain ⟨ho, hz⟩ := hP _ _ _ _ _ heq0
            refine ⟨fun op hop => ?_, fun a ha => ?_⟩
            · simp only [flatAtomsL, List.mem_append]
              exact Or.inl (ho op hop)
            · simp only [flatAtomsL, List.mem_append]
              exact Or.inl (hz a ha)
          · obtain ⟨ho, hz⟩ := hQ.1 _ _ _ _ heqs r hr
            refine ⟨fun op hop => ?_, fun a ha => ?_⟩
            · simp only [flatAtomsL, List.mem_append]
              exact Or.inr (ho op hop)
            · simp only [flatAtomsL, List.mem_append]
              exact Or.inr (hz a ha)
    · intro pred pre post ps ops h
      simp only [get_series_partitions] at h
      split at h
      · exact Option.noConfusion h
      case _ p0 ops0 heq0 =>
        split at h
        · exact Option.noConfusion h
        case _ ps1 ops1 heqs =>
          rw [Option.some_inj] at h
          obtain ⟨hps, hops⟩ := Prod.mk.injEq .. ▸ h
          subst hops
          obtain ⟨ho0, hz0⟩ := hP _ _ _ _ _ heq0
          obtain ⟨ho1, hz1⟩ := hQ.2 _ _ _ _ _ heqs
          constructor
          · intro op hop
            simp only [flatAtomsL, List.mem_append]
            rcases List.mem_append.mp hop with h1 | h1
            · exact Or.inl (ho0 op h1)
            · exact Or.inr (ho1 op h1)
          · intro q hq a ha
            rw [← hps] at hq
            simp only [flatAtomsL, List.mem_append]
            rcases List.mem_cons.mp hq with rfl | hq
            · exact Or.inl (hz0 a ha)
            · exact Or.inr (hz1 q hq a ha)

theorem ibp_single (succ : Component) :
    ∀ (pred : Option String) (step : String) (posts : List String) (e : SlotEffect),
      insert_before_postrequisites succ pred step posts = some e →
      ∃ op, SlotEffect.ops e = [op] ∧ op.step = step := by
  refine componentInd
    (P := fun succ => ∀ (pred : Option String) (step : String)
      (posts : List String) (e : SlotEffect),
      insert_before_postrequisites succ pred step posts = some e →
      ∃ op, SlotEffect.ops e = [op] ∧ op.step = step)
    (Q := fun l => ∀ c ∈ l, ∀ (pred : Option String) (step : String)
      (posts : List String) (e : SlotEffect),
      insert_before_postrequisites c pred step posts = some e →
      ∃ op, SlotEffect.ops e = [op] ∧ op.step = step)
    ?_ ?_ ?_ ?_ ?_ succ
  · intro s pred step posts e h
    simp only [insert_before_postrequisites] at h
    split at h
    · rw [Option.some_inj] at h
      subst h
      exact ⟨_, rfl, rfl⟩
    · split at h
      · exact Option.noConfusion h
      · rw [Option.some_inj] at h
        subst h
        exact ⟨_, rfl, rfl⟩
  · intro l hQ pred step posts e h
    cases l with
    | nil => simp [insert_before_postrequisites] at h
    | cons hd t =>
      simp only [insert_before_postrequisites] at h
      cases hin : insert_before_postrequisites hd pred step posts with
      | none => rw [hin] at h; exact Option.noConfusion h
      | some e0 =>
        rw [hin] at h
        obtain ⟨op, ho, hs⟩ := hQ hd (List.mem_cons_self _ _) _ _ _ _ hin
        cases e0 with
        | insertStepBefore ops0 =>
          dsimp only at h
          rw [Option.some_inj] at h
          subst h
          exact ⟨op, by simpa [SlotEffect.ops] using ho, hs⟩
        | setSlot f0 d0 ops0 =>
          dsimp only at h
          rw [Option.some_inj] at h
          subst h
          exact ⟨op, by simpa [SlotEffect.ops] using ho, hs⟩
  · intro l hQ pred step posts e h
    match l with
    | [] =>
      simp only [insert_before_postrequisites] at h
      split at h
      · rw [Option.some_inj] at h
        subst h
        exact ⟨_, rfl, rfl⟩
      · split at h
        · exact Option.noConfusion h
        · rw [Option.some_inj] at h
          subst h
          exact ⟨_, rfl, rfl⟩
    | [m] =>
      simp only [insert_before_postrequisites] at h
      cases hin : insert_before_postrequisites m pred step posts with
      | none => rw [hin] at h; exact Option.noConfusion h
      | some e0 =>
        rw [hin] at h
        obtain ⟨op, ho, hs⟩ := hQ m (List.mem_cons_self _ _) _ _ _ _ hin
        cases e0 with
        | insertStepBefore ops0 =>
          dsimp only at h
          split at h
          · rw [Option.some_inj] at h
            subst h
            exact ⟨op, by simpa [SlotEffect.ops] using ho, hs⟩
          · rw [Option.some_inj] at h
            subst h
            exact ⟨op, by simpa [SlotEffect.ops] using ho, hs⟩
        | setSlot f0 d0 ops0 =>
          dsimp only at h
          split at h
          · rw [Option.some_inj] at h
            subst h
            exact ⟨op, by simpa [SlotEffect.ops] using ho, hs⟩
          · rw [Option.some_inj] at h
            subst h
            exact ⟨op, by simpa [SlotEffect.ops] using ho, hs⟩
    | m1 :: m2 :: rest =>
      simp only [insert_before_postrequisites] at h
      split at h
      · rw [Option.some_inj] at h
        subst h
        exact ⟨_, rfl, rfl⟩
      · split at h
        · exact Option.noConfusion h
        · rw [Option.some_inj] at h
          subst h
          exact ⟨_, rfl, rfl⟩
  · intro c hc
    simp at hc
  · intro c cs hP hQ d hd
    rcases List.mem_cons.mp hd with rfl | hd
    · exact hP
    · exact hQ d hd

theorem insert_step_single (l : List Component) :
    ∀ (step : String) (pre posts : List String)
      (f d : List Component) (ops : List BaseOperation),
      insert_step l step pre posts = .ok f d ops →
      ∃ op, ops = [op] ∧ op.step = step := by
  refine componentIndL
    (P := fun c => ∀ (cs : List Component) (step : String) (pre posts : List String)
      (f d : List Component) (ops : List BaseOperation),
      insertStepInto c cs step pre posts = .ok f d ops →
      ∃ op, ops = [op] ∧ op.step = step)
    (Q := fun l => ∀ (step : String) (pre posts : List String)
      (f d : List Component) (ops : List BaseOperation),
      insert_step l step pre posts = .ok f d ops →
      ∃ op, ops = [op] ∧ op.step = step)
    ?_ ?_ ?_ ?_ ?_ l
  · intro s cs step pre posts f d ops h
    simp [insertStepInto] at h
  · intro l hQ cs step pre posts f d ops h
    simp only [insertStepInto] at h
    cases hin : insert_step l step pre posts with
    | err => rw [hin] at h; exact InsertOutcome.noConfusion h
    | notFound => rw [hin] at h; exact InsertOutcome.noConfusion h
    | ok f0 d0 ops0 =>
      rw [hin] at h
      dsimp only at h
      injection h with hf hd ho
      subst ho
      exact hQ _ _ _ _ _ _ hin
  · intro l hQ cs step pre posts f d ops h
    simp only [insertStepInto] at h
    cases hin : insert_step l step pre posts with
    | err => rw [hin] at h; exact InsertOutcome.noConfusion h
    | notFound => rw [hin] at h; exact InsertOutcome.noConfusion h
    | ok f0 d0 ops0 =>
      rw [hin] at h
      dsimp only at h
      injection h with hf hd ho
      subst ho
      exact hQ _ _ _ _ _ _ hin
  · intro step pre posts f d ops h
    simp [insert_step] at h
  · intro c cs hP hQ step pre posts f d ops h
    cases c with
    | atom p =>
      cases cs with
      | nil =>
        rw [insert_step.eq_2, insert_step.eq_1] at h
        dsimp only at h
        by_cases hmem : pre.contains p = true
        · rw [if_pos hmem] at h
          injection h with hf hd ho
          subst ho
          exact ⟨_, rfl, rfl⟩
        · rw [if_neg hmem] at h
          exact InsertOutcome.noConfusion h
      | cons succ rest =>
        rw [insert_step.eq_3] at h
        cases hin : insert_step (succ :: rest) step pre posts with
        | err =>
          rw [hin] at h
          exact InsertOutcome.noConfusion h
        | ok f0 d0 ops0 =>
          rw [hin] at h
          dsimp only at h
          injection h with hf hd ho
          subst ho
          exact hQ _ _ _ _ _ _ hin
        | notFound =>
          rw [hin] at h
          dsimp only at h
          by_cases hmem : pre.contains p = true
          · rw [if_pos hmem] at h
            cases hibp : insert_before_postrequisites succ (some p) step posts with
            | none =>
              rw [hibp] at h
              exact InsertOutcome.noConfusion h
            | some e0 =>
              rw [hibp] at h
              obtain ⟨op, h1, h2⟩ := ibp_single _ _ _ _ _ hibp
              cases e0 with
              | insertStepBefore ops1 =>
                dsimp only at h
                injection h with hf hd ho
                subst ho
                exact ⟨op, by simpa [SlotEffect.ops] using h1, h2⟩
              | setSlot f1 d1 ops1 =>
                dsimp only at h
                injection h with hf hd ho
                subst ho
                exact ⟨op, by simpa [SlotEffect.ops] using h1, h2⟩
          · rw [if_neg hmem] at h
            exact InsertOutcome.noConfusion h
    | ser l =>
      rw [insert_step.eq_4] at h
      cases hin : insert_step cs step pre posts with
      | err =>
        rw [hin] at h
        exact InsertOutcome.noConfusion h
      | ok f0 d0 ops0 =>
        rw [hin] at h
        dsimp only at h
        injection h with hf hd ho
        subst ho
        exact hQ _ _ _ _ _ _ hin
      | notFound =>
        rw [hin] at h
        dsimp only at h
        exact hP _ _ _ _ _ _ _ h
    | par l =>
      rw [insert_step.eq_5] at h
      cases hin : insert_step cs step pre posts with
      | err =>
        rw [hin] at h
        exact InsertOutcome.noConfusion h
      | ok f0 d0 ops0 =>
        rw [hin] at h
        dsimp only at h
        injection h with hf hd ho
        subst ho
        exact hQ _ _ _ _ _ _ hin
      | notFound =>
        rw [hin] at h
        dsimp only at h
        exact hP _ _ _ _ _ _ _ h

/-- C10: for a non-empty pipeline and a step name that does not occur in it,
the instruction list of a successful `add` names the new step exactly once. -/
theorem claim_C10 (root : List Component) (step : String)
    (pre posts : List String) (r : WeldResult)
    (hroot : root.isEmpty = false)
    (hfresh : step ∉ flatAtomsL root)
    (h : add (.ser root) step pre posts = some r) :
    r.instructions.countP (fun op => op.step == step) = 1 := by
  simp only [add] at h
  rw [if_neg (by simp [hroot])] at h
  cases hp : partition_component (.ser root) none pre posts with
  | none => rw [hp] at h; exact Option.noConfusion h
  | some pr =>
    obtain ⟨part, instrs⟩ := pr
    rw [hp] at h
    dsimp only at h
    obtain ⟨hinstr, -⟩ := partition_atoms _ _ _ _ _ _ hp
    have hzero : instrs.countP (fun op => op.step == step) = 0 := by
      rw [List.countP_eq_zero]
      intro op hop
      have hmem := hinstr op hop
      simp only [flatAtoms] at hmem
      simp only [beq_iff_eq]
      intro heq
      exact hfresh (heq ▸ hmem)
    have hone : ∀ ops : List BaseOperation,
        (∃ op, ops = [op] ∧ op.step = step) →
        (instrs ++ ops).countP (fun op => op.step == step) = 1 := by
      rintro ops ⟨op, rfl, hstep⟩
      rw [List.countP_append, hzero]
      simp [List.countP_cons, hstep]
    cases hf : flatten_partition part with
    | none => rw [hf] at h; exact Option.noConfusion h
    | some fc =>
      rw [hf] at h
      cases fc with
      | atom a => exact Option.noConfusion h
      | par l => exact Option.noConfusion h
      | ser rl =>
        dsimp only at h
        cases his : insert_step rl step pre posts with
        | err => rw [his] at h; exact Option.noConfusion h
        | ok full deep ops =>
          rw [his] at h
          dsimp only at h
          rw [Option.some_inj] at h
          subst h
          exact hone ops (insert_step_single _ _ _ _ _ _ _ his)
        | notFound =>
          rw [his] at h
          dsimp only at h
          cases rl with
          | nil => exact Option.noConfusion h
          | cons h0 t =>
            dsimp only at h
            cases hibp : insert_before_postrequisites h0 none step posts with
            | none => rw [hibp] at h; exact Option.noConfusion h
            | some e0 =>
              rw [hibp] at h
              obtain ⟨op, h1, h2⟩ := ibp_single _ _ _ _ _ hibp
              cases e0 with
              | insertStepBefore ops1 =>
                dsimp only at h
                rw [Option.some_inj] at h
                subst h
                exact hone ops1 ⟨op, by simpa [SlotEffect.ops] using h1, h2⟩
              | setSlot f1 d1 ops1 =>
                dsimp only at h
                rw [Option.some_inj] at h
                subst h
                exact hone ops1 ⟨op, by simpa [SlotEffect.ops] using h1, h2⟩

theorem claim_C10_witness :
    ([Component.atom "A", Component.atom "B"] : List Component).isEmpty = false ∧
    "C" ∉ flatAtomsL [Component.atom "A", Component.atom "B"] ∧
    ∃ r : WeldResult,
      add (.ser [Component.atom "A", Component.atom "B"]) "C" ["A"] [] = some r ∧
      r.instructions.countP (fun op => op.step == "C") = 1 := by
  refine ⟨rfl, by decide,
    ⟨⟨[.InsertParallel (some "A") "C"],
      series [.atom "A", parallel [.atom "B", .atom "C"]]⟩, rfl, ?_⟩⟩
  exact claim_C10 [Component.atom "A", Component.atom "B"] "C" ["A"] [] _
    rfl (by decide) rfl

theorem flatAtomsL_elemsOf (c : Component) :
    flatAtomsL (elemsOf c) = flatAtoms c := by
  cases c with
  | atom s => simp [elemsOf, flatAtomsL, flatAtoms]
  | ser l => rfl
  | par l => simp [elemsOf, flatAtomsL, flatAtoms]

theorem concat_foldl_elems (args : List (Option Component)) (acc : List Component) :
    args.foldl
      (fun acc c =>
        match c with
        | some (.ser items) => acc ++ items
        | some other => acc ++ [other]
        | none => acc) acc =
    acc ++ (args.map optElems).flatten := by
  induction args generalizing acc with
  | nil => simp
  | cons a rest ih =>
    cases a with
    | none => simp [ih, optElems]
    | some c =>
      cases c with
      | atom s => simp [ih, optElems, elemsOf]
      | ser items => simp [ih, optElems, elemsOf]
      | par items => simp [ih, optElems, elemsOf]

theorem concatC_eq (args : List (Option Component)) :
    concatC args =
      if ((args.map optElems).flatten).isEmpty then none
      else some (series ((args.map optElems).flatten)) := by
  simp only [concatC, concat_foldl_elems args [], List.nil_append]

theorem union_foldl_elems (args : List (Option Component)) (acc : List Component) :
    args.foldl
      (fun acc c =>
        match c with
        | some (.par items) => acc ++ items
        | some other => acc ++ [other]
        | none => acc) acc =
    acc ++ (args.map optParElems).flatten := by
  induction args generalizing acc with
  | nil => simp
  | cons a rest ih =>
    cases a with
    | none => simp [ih, optParElems]
    | some c =>
      cases c with
      | atom s => simp [ih, optParElems, parElemsOf]
      | ser items => simp [ih, optParElems, parElemsOf]
      | par items => simp [ih, optParElems, parElemsOf]

theorem unionC_eq (args : List (Option Component)) :
    unionC args =
      if ((args.map optParElems).flatten).isEmpty then none
      else some (parallel ((args.map optParElems).flatten)) := by
  simp only [unionC, union_foldl_elems args [], List.nil_append]

theorem ceq_ser_atom (l : List Component) (s : String) :
    ceq (.ser l) (.atom s) = false := rfl

theorem ceq_par_atom (l : List Component) (s : String) :
    ceq (.par l) (.atom s) = false := rfl

theorem ceqF_ser_par : ∀ n (l m : List Component),
    ceqF n (.ser l) (.par m) = false := by
  intro n
  cases n <;> intro l m <;> rfl

theorem ceq_ser_par (l m : List Component) :
    ceq (.ser l) (.par m) = false := ceqF_ser_par _ _ _

theorem ceq_atom_atom (a b : String) :
    ceq (.atom a) (.atom b) = (a == b) := rfl

theorem sz_pos (c : Component) : 0 < sz c := by
  cases c <;> simp [sz, Nat.lt_add_right, Nat.zero_lt_one, Nat.succ_le_iff,
    Nat.lt_add_of_pos_left]

theorem sz_mem_le {c : Component} {l : List Component} (h : c ∈ l) :
    sz c ≤ szL l := by
  induction l with
  | nil => simp at h
  | cons x xs ih =>
    rcases List.mem_cons.mp h with rfl | h
    · simp [szL, Nat.le_add_right]
    · exact Nat.le_trans (ih h) (by simp [szL, Nat.le_add_left])

theorem zip_self_mem {l : List Component} :
    ∀ p ∈ List.zip l l, p.1 = p.2 ∧ p.1 ∈ l := by
  induction l with
  | nil => simp
  | cons x xs ih =>
    intro p hp
    rcases List.mem_cons.mp hp with rfl | hp
    · exact ⟨rfl, List.mem_cons_self _ _⟩
    · obtain ⟨h1, h2⟩ := ih p hp
      exact ⟨h1, List.mem_cons_of_mem _ h2⟩

theorem ceqF_refl : ∀ n c, sz c ≤ n → ceqF n c c = true := by
  intro n
  induction n with
  | zero =>
    intro c hc
    exact absurd hc (by simpa using Nat.not_le_of_lt (sz_pos c))
  | succ n ih =>
    intro c hc
    have hsub : ∀ l, c = .ser l ∨ c = .par l → ∀ x ∈ l, sz x ≤ n := by
      rintro l (rfl | rfl) x hx <;>
      · have h1 : szL l ≤ n := by
          simp only [sz] at hc
          omega
        exact Nat.le_trans (sz_mem_le hx) h1
    cases c with
    | atom s => simp [ceqF]
    | ser l =>
      simp only [ceqF, Bool.and_eq_true, beq_self_eq_true, true_and]
      rw [List.all_eq_true]
      intro p hp
      obtain ⟨h1, h2⟩ := zip_self_mem p hp
      rw [← h1]
      exact ih p.1 (hsub l (Or.inl rfl) p.1 h2)
    | par l =>
      simp only [ceqF, Bool.and_eq_true]
      constructor <;>
      · rw [List.all_eq_true]
        intro x hx
        rw [List.any_eq_true]
        exact ⟨x, hx, ih x (hsub l (Or.inr rfl) x hx)⟩

theorem ceq_refl (c : Component) : ceq c c = true :=
  ceqF_refl _ c (Nat.le_add_right _ _)

theorem pairwiseDistinct_iff {l : List Component} :
    pairwiseDistinct l = true ↔
      List.Pairwise (fun a b => ceq a b = false) l := by
  induction l with
  | nil => simp [pairwiseDistinct]
  | cons c cs ih =>
    simp [pairwiseDistinct, List.all_eq_true, ih]

theorem dedupCeq_of_pairwise {l : List Component}
    (h : pairwiseDistinct l = true) : dedupCeq l = l := by
  induction l with
  | nil => rfl
  | cons c cs ih =>
    simp only [pairwiseDistinct, Bool.and_eq_true, List.all_eq_true] at h
    obtain ⟨h1, h2⟩ := h
    simp only [dedupCeq, ih h2]
    rw [List.filter_eq_self.mpr]
    intro a ha
    exact h1 a ha

theorem pairwiseDistinct_append_one {l : List Component} {x : Component}
    (h : pairwiseDistinct l = true)
    (hx : ∀ m ∈ l, ceq m x = false) :
    pairwiseDistinct (l ++ [x]) = true := by
  induction l with
  | nil => simp [pairwiseDistinct]
  | cons c cs ih =>
    simp only [pairwiseDistinct, Bool.and_eq_true, List.all_eq_true] at h
    obtain ⟨h1, h2⟩ := h
    simp only [List.cons_append, pairwiseDistinct, Bool.and_eq_true,
      List.all_eq_true]
    refine ⟨?_, ih h2 (fun m hm => hx m (List.mem_cons_of_mem _ hm))⟩
    intro a ha
    rcases List.mem_append.mp ha with ha | ha
    · exact h1 a ha
    · rw [List.mem_singleton.mp ha]
      simpa using hx c (List.mem_cons_self _ _)

theorem fresh_not_ceq_atom {m : Component} {step : String}
    (h : step ∉ flatAtoms m) : ceq m (.atom step) = false := by
  cases m with
  | atom a =>
    rw [ceq_atom_atom]
    simp only [flatAtoms, List.mem_singleton] at h
    exact beq_eq_false_iff_ne.mpr (fun hh => h hh.symm)
  | ser l => exact ceq_ser_atom l step
  | par l => exact ceq_par_atom l step

theorem wellFormedL_forall {l : List Component} :
    wellFormedL l = true ↔ ∀ c ∈ l, wellFormed c = true := by
  induction l with
  | nil => simp [wellFormedL]
  | cons c cs ih => simp [wellFormedL, ih, List.forall_mem_cons]

theorem wf_flatAtoms_ne_nil (c : Component) :
    wellFormed c = true → flatAtoms c ≠ [] := by
  refine componentInd
    (P := fun c => wellFormed c = true → flatAtoms c ≠ [])
    (Q := fun l => wellFormedL l = true → l ≠ [] → flatAtomsL l ≠ [])
    ?_ ?_ ?_ ?_ ?_ c
  · intro s _
    simp [flatAtoms]
  · intro l hQ h
    simp only [wellFormed, Bool.and_eq_true, Bool.not_eq_true',
      List.isEmpty_eq_false] at h
    exact hQ h.2 h.1
  · intro l hQ h
    simp only [wellFormed, Bool.and_eq_true, Bool.not_eq_true',
      List.isEmpty_eq_false] at h
    exact hQ h.2 h.1.1.1
  · intro _ h
    exact absurd rfl h
  · intro c cs hP hQ h _
    simp only [wellFormedL, Bool.and_eq_true] at h
    simp only [flatAtomsL, ne_eq, List.append_eq_nil, not_and]
    intro hc
    exact absurd hc (hP h.1)

theorem has_any_steps_nil (c : Component) :
    has_any_steps c [] = false := by
  refine componentInd
    (P := fun c => has_any_steps c [] = false)
    (Q := fun l => hasAnyStepsL l [] = false)
    ?_ ?_ ?_ ?_ ?_ c
  · intro s; rfl
  · intro l hQ; exact hQ
  · intro l hQ; exact hQ
  · rfl
  · intro c cs hP hQ
    simp [hasAnyStepsL, hP, hQ]

theorem flatAtoms_split (c : Component) :
    flatAtoms c = headGroupAtoms c ++ restAtoms c := by
  refine componentInd
    (P := fun c => flatAtoms c = headGroupAtoms c ++ restAtoms c)
    (Q := fun l => ∀ c ∈ l, flatAtoms c = headGroupAtoms c ++ restAtoms c)
    ?_ ?_ ?_ ?_ ?_ c
  · intro s; rfl
  · intro l hQ
    cases l with
    | nil => rfl
    | cons h t =>
      have := hQ h (List.mem_cons_self _ _)
      simp [flatAtoms, flatAtomsL, headGroupAtoms, hgSer, restAtoms, raSer,
        this]
  · intro l hQ
    match l with
    | [] => rfl
    | [m] =>
      have := hQ m (List.mem_cons_self _ _)
      simp [flatAtoms, flatAtomsL, headGroupAtoms, hgPar, restAtoms, raPar,
        this]
    | m1 :: m2 :: ms =>
      simp [flatAtoms, headGroupAtoms, hgPar, restAtoms, raPar]
  · intro c hc
    simp at hc
  · intro c cs hP hQ d hd
    rcases List.mem_cons.mp hd with rfl | hd
    · exact hP
    · exact hQ d hd

theorem headGroup_ne_nil (c : Component) :
    wellFormed c = true → headGroupAtoms c ≠ [] := by
  refine componentInd
    (P := fun c => wellFormed c = true → headGroupAtoms c ≠ [])
    (Q := fun l => ∀ c ∈ l, wellFormed c = true → headGroupAtoms c ≠ [])
    ?_ ?_ ?_ ?_ ?_ c
  · intro s _
    simp [headGroupAtoms]
  · intro l hQ h
    simp only [wellFormed, Bool.and_eq_true, Bool.not_eq_true',
      List.isEmpty_eq_false] at h
    cases l with
    | nil => exact absurd rfl h.1
    | cons hd t =>
      have hw : wellFormed hd = true :=
        (wellFormedL_forall.mp h.2) hd (List.mem_cons_self _ _)
      simpa [headGroupAtoms, hgSer] using hQ hd (List.mem_cons_self _ _) hw
  · intro l hQ h
    simp only [wellFormed, Bool.and_eq_true, Bool.not_eq_true',
      List.isEmpty_eq_false] at h
    match l with
    | [] => exact absurd rfl h.1.1.1
    | [m] =>
      have hw : wellFormed m = true :=
        (wellFormedL_forall.mp h.2) m (List.mem_cons_self _ _)
      simpa [headGroupAtoms, hgPar] using hQ m (List.mem_cons_self _ _) hw
    | m1 :: m2 :: ms =>
      show headGroupAtoms (.par (m1 :: m2 :: ms)) ≠ []
      have := wf_flatAtoms_ne_nil (.par (m1 :: m2 :: ms))
        (by simp [wellFormed, h.1.1.2, h.1.2, h.2])
      simpa [headGroupAtoms, hgPar, flatAtoms] using this
  · intro c hc
    simp at hc
  · intro c cs hP hQ d hd
    rcases List.mem_cons.mp hd with rfl | hd
    · exact hP
    · exact hQ d hd

theorem pairwiseDistinct_single (x : Component) :
    pairwiseDistinct [x] = true := by
  simp [pairwiseDistinct]

theorem union_single_atom (x : Component) (step : String)
    (hx : ∀ m ∈ parElemsOf x, ceq m (.atom step) = false)
    (hpd : pairwiseDistinct (parElemsOf x) = true) :
    unionC [some x, some (.atom step)] =
      some (.par (parElemsOf x ++ [.atom step])) := by
  rw [unionC_eq]
  have hflat : ((([some x, some (.atom step)]).map optParElems).flatten) =
      parElemsOf x ++ [.atom step] := by
    simp [optParElems, parElemsOf]
  rw [hflat]
  rw [if_neg (by simp)]
  rw [Option.some_inj]
  show Component.par (dedupCeq (parElemsOf x ++ [.atom step])) = _
  rw [dedupCeq_of_pairwise (pairwiseDistinct_append_one hpd hx)]

theorem ibp_empty_posts (step : String) (succ : Component) :
    ∀ pred : Option String,
      wellFormed succ = true → step ∉ flatAtoms succ →
      ∃ f d, insert_before_postrequisites succ pred step [] =
          some (.setSlot f d [.InsertParallel pred step]) ∧
        flatAtoms f = headGroupAtoms succ ++ step :: restAtoms succ ∧
        (∀ il, succ = .ser il → d = f ∧ ∃ l2, f = .ser l2) ∧
        (∀ a, succ = .atom a → f = .par [.atom a, .atom step] ∧ d = .atom a) := by
  refine componentInd
    (P := fun succ => ∀ pred : Option String,
      wellFormed succ = true → step ∉ flatAtoms succ →
      ∃ f d, insert_before_postrequisites succ pred step [] =
          some (.setSlot f d [.InsertParallel pred step]) ∧
        flatAtoms f = headGroupAtoms succ ++ step :: restAtoms succ ∧
        (∀ il, succ = .ser il → d = f ∧ ∃ l2, f = .ser l2) ∧
        (∀ a, succ = .atom a → f = .par [.atom a, .atom step] ∧ d = .atom a))
    (Q := fun l => ∀ c ∈ l, ∀ pred : Option String,
      wellFormed c = true → step ∉ flatAtoms c →
      ∃ f d, insert_before_postrequisites c pred step [] =
          some (.setSlot f d [.InsertParallel pred step]) ∧
        flatAtoms f = headGroupAtoms c ++ step :: restAtoms c ∧
        (∀ il, c = .ser il → d = f ∧ ∃ l2, f = .ser l2) ∧
        (∀ a, c = .atom a → f = .par [.atom a, .atom step] ∧ d = .atom a))
    ?_ ?_ ?_ ?_ ?_ succ
  · -- atom
    intro a pred _ hfresh
    have hne : a ≠ step := by
      simp only [flatAtoms, List.mem_singleton] at hfresh
      exact fun hh => hfresh hh.symm
    have hceq : ceq (.atom a) (.atom step) = false := by
      rw [ceq_atom_atom]
      exact beq_eq_false_iff_ne.mpr hne
    refine ⟨.par [.atom a, .atom step], .atom a, ?_, ?_, ?_, ?_⟩
    · rw [insert_before_postrequisites.eq_3]
      rw [if_neg (by rw [has_any_steps_nil]; simp)]
      rw [union_single_atom (.atom a) step
        (by intro m hm
            rw [show m = Component.atom a by simpa [parElemsOf] using hm]
            exact hceq)
        (by simp [parElemsOf, pairwiseDistinct])]
      rfl
    · simp [flatAtoms, flatAtomsL, headGroupAtoms, restAtoms]
    · intro il h
      exact absurd h (by simp)
    · intro b h
      rw [show b = a from (Component.atom.injEq .. ▸ h.symm)]
      exact ⟨rfl, rfl⟩
  · -- series
    intro l hQ pred hwf hfresh
    simp only [wellFormed, Bool.and_eq_true, Bool.not_eq_true',
      List.isEmpty_eq_false] at hwf
    cases l with
    | nil => exact absurd rfl hwf.1
    | cons h t =>
      have hwh : wellFormed h = true :=
        (wellFormedL_forall.mp hwf.2) h (List.mem_cons_self _ _)
      have hfh : step ∉ flatAtoms h := by
        simp only [flatAtoms, flatAtomsL, List.mem_append] at hfresh
        exact fun hh => hfresh (Or.inl hh)
      obtain ⟨fh, dh, heq, hatoms, -, -⟩ :=
        hQ h (List.mem_cons_self _ _) pred hwh hfh
      refine ⟨.ser (fh :: t), .ser (fh :: t), ?_, ?_, ?_, ?_⟩
      · rw [insert_before_postrequisites.eq_5, heq]
      · simp only [flatAtoms, flatAtomsL, headGroupAtoms, hgSer, restAtoms,
          raSer, hatoms]
        simp
      · intro il _
        exact ⟨rfl, fh :: t, rfl⟩
      · intro b h
        exact absurd h (by simp)
  · -- parallel
    intro l hQ pred hwf hfresh
    simp only [wellFormed, Bool.and_eq_true, Bool.not_eq_true',
      List.isEmpty_eq_false] at hwf
    match l with
    | [] => exact absurd rfl hwf.1.1.1
    | [m] =>
      have hwm : wellFormed m = true :=
        (wellFormedL_forall.mp hwf.2) m (List.mem_cons_self _ _)
      have hfm : step ∉ flatAtoms m := by
        simp only [flatAtoms, flatAtomsL, List.append_nil] at hfresh
        exact hfresh
      obtain ⟨fm, dm, heq, hatoms, hserCase, hatomCase⟩ :=
        hQ m (List.mem_cons_self _ _) pred hwm hfm
      cases m with
      | par inner =>
        have hnp : noParMember [Component.par inner] = true := hwf.1.2
        simp [noParMember] at hnp
      | atom a =>
        obtain ⟨hfm2, hdm2⟩ := hatomCase a rfl
        subst hfm2
        subst hdm2
        have hne : a ≠ step := by
          simp only [flatAtoms, List.mem_singleton] at hfm
          exact fun hh => hfm hh.symm
        have hceq : ceq (.atom a) (.atom step) = false := by
          rw [ceq_atom_atom]
          exact beq_eq_false_iff_ne.mpr hne
        refine ⟨.par [.atom a, .atom step], .par [.atom a], ?_, ?_, ?_, ?_⟩
        · rw [insert_before_postrequisites.eq_1, heq]
          dsimp only
          rw [union_single_atom (.par [.atom a]) step
            (by intro mm hmm
                rw [show mm = Component.atom a by simpa [parElemsOf] using hmm]
                exact hceq)
            (by simp [parElemsOf, pairwiseDistinct])]
          dsimp only [parElemsOf]
          rw [show ceq (.par [.atom a, .atom step])
              (.par ([Component.atom a] ++ [.atom step])) = true from
            ceq_refl _]
          rfl
        · simp [flatAtoms, flatAtomsL, headGroupAtoms, hgPar, restAtoms, raPar]
        · intro il hh
          exact absurd hh (by simp)
        · intro b hh
          exact absurd hh (by simp)
      | ser inner =>
        obtain ⟨hdF, l2, hser⟩ := hserCase inner rfl
        rw [hdF] at heq
        refine ⟨.par [fm], .par [fm], ?_, ?_, ?_, ?_⟩
        · rw [insert_before_postrequisites.eq_1, heq]
          dsimp only
          rw [union_single_atom (.par [fm]) step
            (by intro mm hmm
                rw [show mm = fm by simpa [parElemsOf] using hmm]
                rw [hser]
                exact ceq_ser_atom _ _)
            (by simp [parElemsOf, pairwiseDistinct])]
          dsimp only [parElemsOf]
          rw [show ceq fm (.par ([fm] ++ [.atom step])) = false from by
            rw [hser]; exact ceq_ser_par _ _]
        · simp only [flatAtoms, flatAtomsL, List.append_nil, headGroupAtoms,
            hgPar, restAtoms, raPar]
          exact hatoms
        · intro il hh
          exact absurd hh (by simp)
        · intro b hh
          exact absurd hh (by simp)
    | m1 :: m2 :: ms =>
      have hpd : pairwiseDistinct (m1 :: m2 :: ms) = true := hwf.1.1.2
      have hx : ∀ m ∈ m1 :: m2 :: ms, ceq m (.atom step) = false := by
        intro m hm
        refine fresh_not_ceq_atom ?_
        intro hh
        exact hfresh (mem_flatAtomsL.mpr ⟨m, hm, hh⟩)
      refine ⟨.par ((m1 :: m2 :: ms) ++ [.atom step]), .par (m1 :: m2 :: ms),
        ?_, ?_, ?_, ?_⟩
      · rw [insert_before_postrequisites.eq_2 pred step []
          (m1 :: m2 :: ms) (by intro x hx2; simp at hx2)]
        rw [if_neg (by rw [has_any_steps_nil]; simp)]
        rw [union_single_atom (.par (m1 :: m2 :: ms)) step
          (by simpa [parElemsOf] using hx)
          (by simpa [parElemsOf] using hpd)]
        rfl
      · simp only [flatAtoms, headGroupAtoms, hgPar, restAtoms, raPar,
          flatAtomsL_append]
        simp [flatAtomsL, flatAtoms]
      · intro il hh
        exact absurd hh (by simp)
      · intro b hh
        exact absurd hh (by simp)
  · intro c hc
    simp at hc
  · intro c cs hP hQ d hd
    rcases List.mem_cons.mp hd with rfl | hd
    · exact hP
    · exact hQ d hd

theorem insert_step_empty_pre (l : List Component) :
    ∀ (step : String) (posts : List String),
      insert_step l step [] posts = .notFound := by
  refine componentIndL
    (P := fun c => ∀ (cs : List Component) (step : String) (posts : List String),
      insertStepInto c cs step [] posts = .notFound)
    (Q := fun l => ∀ (step : String) (posts : List String),
      insert_step l step [] posts = .notFound)
    ?_ ?_ ?_ ?_ ?_ l
  · intro s cs step posts
    rfl
  · intro il hQ cs step posts
    show insertStepInto (.ser il) cs step [] posts = .notFound
    simp only [insertStepInto, hQ]
  · intro il hQ cs step posts
    show insertStepInto (.par il) cs step [] posts = .notFound
    simp only [insertStepInto, hQ]
  · intro step posts
    rfl
  · intro c cs hP hQ step posts
    cases c with
    | atom a =>
      cases cs with
      | nil =>
        rw [insert_step.eq_2, insert_step.eq_1]
        simp [List.contains]
      | cons succ rest =>
        rw [insert_step.eq_3, hQ]
        simp [List.contains]
    | ser il =>
      rw [insert_step.eq_4, hQ]
      exact hP _ _ _
    | par il =>
      rw [insert_step.eq_5, hQ]
      exact hP _ _ _

theorem elemsOf_ne_nil {c : Component} (h : flatAtoms c ≠ []) :
    elemsOf c ≠ [] := by
  intro hh
  exact h (by rw [← flatAtomsL_elemsOf, hh]; rfl)

theorem wellFormedL_filter {l : List Component} (p : Component → Bool)
    (h : wellFormedL l = true) : wellFormedL (l.filter p) = true := by
  rw [wellFormedL_forall] at h ⊢
  intro c hc
  exact h c (List.mem_of_mem_filter hc)

theorem wellFormedL_append {l1 l2 : List Component}
    (h1 : wellFormedL l1 = true) (h2 : wellFormedL l2 = true) :
    wellFormedL (l1 ++ l2) = true := by
  rw [wellFormedL_forall] at h1 h2 ⊢
  intro c hc
  rcases List.mem_append.mp hc with hc | hc
  · exact h1 c hc
  · exact h2 c hc

theorem wf_of_elems {d : Component}
    (he : wellFormedL (elemsOf d) = true) (ha : flatAtoms d ≠ []) :
    wellFormed d = true := by
  cases d with
  | atom s => rfl
  | ser l =>
    have hne : l ≠ [] := by
      intro hh
      subst hh
      exact ha rfl
    simp only [wellFormed, Bool.and_eq_true, Bool.not_eq_true',
      List.isEmpty_eq_false]
    exact ⟨hne, he⟩
  | par l =>
    simpa [elemsOf, wellFormedL] using he

theorem elemsOf_series (s : List Component) :
    elemsOf (series s) = s.filter (fun c => !(isEmptyContainer c)) := rfl

theorem concat2_some (a b : Component)
    (ha : flatAtoms a ≠ []) :
    concatC [some a, some b] = some (series (elemsOf a ++ elemsOf b)) := by
  rw [concatC_eq]
  have hflat : ((([some a, some b]).map optElems).flatten) =
      elemsOf a ++ elemsOf b := by
    simp [optElems]
  rw [hflat, if_neg]
  simp only [List.isEmpty_eq_true, List.append_eq_nil, not_and]
  intro hh
  exact absurd hh (elemsOf_ne_nil ha)

theorem series_wf_elems {s : List Component}
    (h : wellFormedL s = true) :
    wellFormedL (elemsOf (series s)) = true := by
  rw [elemsOf_series]
  exact wellFormedL_filter _ h

theorem flatAtoms_series_elems (a b : Component) :
    flatAtoms (series (elemsOf a ++ elemsOf b)) = flatAtoms a ++ flatAtoms b := by
  rw [flatAtoms_series, flatAtomsL_append, flatAtomsL_elemsOf, flatAtomsL_elemsOf]

theorem merge_nondep (D d : Component) (T t : String)
    (hD : flatAtoms D ≠ []) :
    op_series_merge_partitions
      { nondependent_component := some D, top_ranked_endpoint := T }
      { nondependent_component := some d, top_ranked_endpoint := t } =
    { nondependent_component := some (series (elemsOf D ++ elemsOf d)),
      top_ranked_endpoint := t } := by
  rw [op_series_merge_partitions]
  rw [if_neg (by simp)]
  rw [if_neg (by simp)]
  simp only []
  rw [show concatC [some D, some d] = some (series (elemsOf D ++ elemsOf d))
    from concat2_some D d hD]

theorem foldl_merge_nondep (qs : List Partition) :
    ∀ (D : Component) (T : String),
      (∀ q ∈ qs, NonOnly q) → flatAtoms D ≠ [] →
      wellFormedL (elemsOf D) = true →
      ∃ D' T', qs.foldl op_series_merge_partitions
          { nondependent_component := some D, top_ranked_endpoint := T } =
        { nondependent_component := some D', top_ranked_endpoint := T' } ∧
        flatAtoms D' = flatAtoms D ++
          (qs.map (fun q => zoneAtoms q.nondependent_component)).flatten ∧
        wellFormedL (elemsOf D') = true := by
  induction qs with
  | nil =>
    intro D T _ hD hwe
    exact ⟨D, T, rfl, by simp, hwe⟩
  | cons q rest ih =>
    intro D T hqs hD hwe
    obtain ⟨hpre, hpost, dd, hnd, hdd, hwedd⟩ := hqs q (List.mem_cons_self _ _)
    have hq : q = { nondependent_component := some dd,
                    top_ranked_endpoint := q.top_ranked_endpoint } := by
      cases q
      simp_all
    rw [List.foldl_cons, hq, merge_nondep D dd T q.top_ranked_endpoint hD]
    have hatoms : flatAtoms (series (elemsOf D ++ elemsOf dd)) =
        flatAtoms D ++ flatAtoms dd := flatAtoms_series_elems D dd
    obtain ⟨D', T', hfold, hat, hwe'⟩ := ih (series (elemsOf D ++ elemsOf dd))
      q.top_ranked_endpoint
      (fun r hr => hqs r (List.mem_cons_of_mem _ hr))
      (by rw [hatoms]; simp [hD])
      (series_wf_elems (wellFormedL_append hwe hwedd))
    refine ⟨D', T', hfold, ?_, hwe'⟩
    rw [hat, hatoms]
    simp [zoneAtoms, hnd]

theorem foldr_ops_nil {rs : List (Partition × List BaseOperation)}
    (h : ∀ r ∈ rs, r.2 = []) :
    rs.foldr (fun r acc => r.2 ++ acc) [] = [] := by
  induction rs with
  | nil => rfl
  | cons r rest ih =>
    simp only [List.foldr_cons, h r (List.mem_cons_self _ _), List.nil_append]
    exact ih (fun r hr => h r (List.mem_cons_of_mem _ hr))

theorem anyIsSome_false {ps : List Partition} {f : Partition → Option Component}
    (h : ∀ p ∈ ps, f p = none) :
    ps.any (fun p => (f p).isSome) = false := by
  rw [List.any_eq_false]
  intro p hp
  simp [h p hp]

theorem pyMin_ne_nil {l : List String} (h : l ≠ []) :
    ∃ m, pyMin l = some m := by
  cases l with
  | nil => exact absurd rfl h
  | cons x xs => exact ⟨_, rfl⟩

theorem partition_empty (c : Component) :
    ∀ pred : Option String, wellFormed c = true →
      ∃ d t, partition_component c pred [] [] =
          some ({ nondependent_component := some d,
                  top_ranked_endpoint := t }, []) ∧
        flatAtoms d = flatAtoms c ∧ wellFormedL (elemsOf d) = true := by
  refine componentInd
    (P := fun c => ∀ pred : Option String, wellFormed c = true →
      ∃ d t, partition_component c pred [] [] =
          some ({ nondependent_component := some d,
                  top_ranked_endpoint := t }, []) ∧
        flatAtoms d = flatAtoms c ∧ wellFormedL (elemsOf d) = true)
    (Q := fun l => ∀ pred : Option String, wellFormedL l = true →
      (∃ rs, partitionMembers l pred [] [] = some rs ∧
        rs.length = l.length ∧
        ∀ r ∈ rs, r.2 = [] ∧ NonOnly r.1) ∧
      (∃ ps, get_series_partitions l pred [] [] = some (ps, []) ∧
        ps.length = l.length ∧ (∀ p ∈ ps, NonOnly p) ∧
        (ps.map (fun p => zoneAtoms p.nondependent_component)).flatten =
          flatAtomsL l))
    ?_ ?_ ?_ ?_ ?_ c
  · -- atom
    intro s pred _
    refine ⟨.atom s, s, ?_, rfl, by simp [elemsOf, wellFormedL, wellFormed]⟩
    simp [partition_component, List.contains]
  · -- series
    intro items hQ pred hwf
    have hwf' := hwf
    simp only [wellFormed, Bool.and_eq_true, Bool.not_eq_true',
      List.isEmpty_eq_false] at hwf'
    obtain ⟨-, hps⟩ := hQ pred hwf'.2
    obtain ⟨ps, hgsp, hlen, hno, hflat⟩ := hps
    simp only [partition_component, hgsp]
    cases ps with
    | nil =>
      have hit : items = [] := List.length_eq_zero.mp (by simpa using hlen.symm)
      exact absurd hit hwf'.1
    | cons p rest =>
      obtain ⟨hpre1, hpost1, d1, hnd1, hd1, hwe1⟩ :=
        hno p (List.mem_cons_self _ _)
      cases rest with
      | nil =>
        refine ⟨series [d1], p.top_ranked_endpoint, ?_, ?_, ?_⟩
        · simp only [List.isEmpty_nil, if_true, hpre1, hpost1, hnd1,
            Option.map_none, Option.map_some]
          rfl
        · rw [flatAtoms_series]
          show flatAtomsL [d1] = flatAtomsL items
          simp only [flatAtomsL, List.append_nil]
          rw [← hflat]
          simp [zoneAtoms, hnd1]
        · refine series_wf_elems ?_
          have hwfd1 : wellFormed d1 = true := wf_of_elems hwe1 hd1
          simp [wellFormedL, hwfd1]
      | cons q qs =>
        have hp : p = { nondependent_component := some d1,
                        top_ranked_endpoint := p.top_ranked_endpoint } := by
          cases p
          simp_all
        obtain ⟨D', T', hfold, hat, hwe'⟩ :=
          foldl_merge_nondep (q :: qs) d1 p.top_ranked_endpoint
            (fun r hr => hno r (List.mem_cons_of_mem _ hr)) hd1 hwe1
        refine ⟨D', T', ?_, ?_, hwe'⟩
        · dsimp only
          rw [if_neg (by simp)]
          rw [hp, hfold]
        · show flatAtoms D' = flatAtomsL items
          rw [hat, ← hflat]
          simp [zoneAtoms, hnd1]
  · -- parallel
    intro mem hQ pred hwf
    have hwf' := hwf
    simp only [wellFormed, Bool.and_eq_true, Bool.not_eq_true',
      List.isEmpty_eq_false] at hwf'
    obtain ⟨hrs, -⟩ := hQ pred hwf'.2
    obtain ⟨rs, hpm, hlen, hall⟩ := hrs
    have hops : ∀ r ∈ rs, r.2 = [] := fun r hr => (hall r hr).1
    have hpre : ∀ p ∈ rs.map Prod.fst, p.prerequisite_component = none := by
      intro p hp
      obtain ⟨r, hr, rfl⟩ := List.mem_map.mp hp
      exact (hall r hr).2.1
    have hpost : ∀ p ∈ rs.map Prod.fst, p.postrequisite_component = none := by
      intro p hp
      obtain ⟨r, hr, rfl⟩ := List.mem_map.mp hp
      exact (hall r hr).2.2.1
    have hne : rs ≠ [] := by
      intro hh
      subst hh
      exact (by simpa using hwf'.1.1.1 : ¬ mem = [])
        (by simpa using hlen.symm)
    obtain ⟨m, hm⟩ := pyMin_ne_nil
      (l := (rs.map Prod.fst).map Partition.top_ranked_endpoint)
      (by simp [hne])
    refine ⟨.par mem, m, ?_, rfl, ?_⟩
    · simp only [partition_component, hpm]
      rw [anyIsSome_false hpre, anyIsSome_false hpost]
      rw [hm]
      simp [foldr_ops_nil hops]
    · simp [elemsOf, wellFormedL, hwf]
  · -- nil
    intro pred _
    exact ⟨⟨[], rfl, rfl, by simp⟩, ⟨[], rfl, rfl, by simp, rfl⟩⟩
  · -- cons
    intro c cs hP hQ pred hwfl
    simp only [wellFormedL, Bool.and_eq_true] at hwfl
    obtain ⟨hwc, hwcs⟩ := hwfl
    obtain ⟨d, t, hpc, hda, hwe⟩ := hP pred hwc
    have hNon : NonOnly { nondependent_component := some d,
                          top_ranked_endpoint := t } :=
      ⟨rfl, rfl, d, rfl, by rw [hda]; exact wf_flatAtoms_ne_nil c hwc, hwe⟩
    constructor
    · obtain ⟨rs, hpm, hlen, hall⟩ := (hQ pred hwcs).1
      refine ⟨({ nondependent_component := some d, top_ranked_endpoint := t }, []) :: rs, ?_, by simp [hlen], ?_⟩
      · simp only [partitionMembers, hpc, hpm]
      · intro r hr
        rcases List.mem_cons.mp hr with rfl | hr
        · exact ⟨rfl, hNon⟩
        · exact hall r hr
    · obtain ⟨ps, hgsp, hlen, hno, hflat⟩ := (hQ (some t) hwcs).2
      refine ⟨{ nondependent_component := some d, top_ranked_endpoint := t } :: ps, ?_, by simp [hlen], ?_, ?_⟩
      · simp only [get_series_partitions, hpc]
        rw [hgsp]
        rfl
      · intro p hp
        rcases List.mem_cons.mp hp with rfl | hp
        · exact hNon
        · exact hno p hp
      · simp only [List.map_cons, List.flatten_cons, hflat]
        show zoneAtoms (some d) ++ flatAtomsL cs = flatAtomsL (c :: cs)
        simp [zoneAtoms, hda, flatAtomsL]

/-- C1, amended: with empty prerequisite and postrequisite sets, a
successful `add` on a well-formed pipeline without the new step emits
exactly one `InsertParallel(None, step)` instruction, and the solution's
atoms are those of the pipeline in their original relative order with the
new step spliced in right after the leading group (the first top-level
element, descending into the front of nested series) - not after the last
group. -/
theorem claim_C1 (root : List Component) (step : String) (r : WeldResult)
    (hwf : wellFormed (.ser root) = true)
    (hfresh : step ∉ flatAtomsL root)
    (h : add (.ser root) step [] [] = some r) :
    r.instructions = [.InsertParallel none step] ∧
    ∃ pre suf, pre ≠ [] ∧ flatAtomsL root = pre ++ suf ∧
      flatAtoms r.solution = pre ++ step :: suf := by
  have hwf' := hwf
  simp only [wellFormed, Bool.and_eq_true, Bool.not_eq_true',
    List.isEmpty_eq_false] at hwf'
  obtain ⟨D, T, hpart, hDa, hDe⟩ := partition_empty (.ser root) none hwf
  have hDne : flatAtoms D ≠ [] := by
    rw [hDa]
    exact wf_flatAtoms_ne_nil _ hwf
  have hflatten : flatten_partition
      { nondependent_component := some D, top_ranked_endpoint := T } =
      some (series (elemsOf D)) := by
    rw [flatten_partition]
    dsimp only
    rw [concatC_eq]
    have hm : ((([none, some D, none] : List (Option Component))).map
        optElems).flatten = elemsOf D := by
      simp [optElems]
    rw [hm, if_neg (by simpa using elemsOf_ne_nil hDne)]
  have hrlAtoms : flatAtomsL ((elemsOf D).filter
      (fun c => !(isEmptyContainer c))) = flatAtomsL root := by
    rw [flatAtomsL_filter_nonEmpty, flatAtomsL_elemsOf]
    exact hDa
  have hrlWf : wellFormedL ((elemsOf D).filter
      (fun c => !(isEmptyContainer c))) = true :=
    wellFormedL_filter _ hDe
  simp only [add] at h
  rw [if_neg (by simpa [List.isEmpty_iff] using hwf'.1)] at h
  rw [hpart] at h
  dsimp only at h
  rw [hflatten] at h
  rw [show series (elemsOf D) = Component.ser ((elemsOf D).filter
    (fun c => !(isEmptyContainer c))) from rfl] at h
  dsimp only at h
  rw [insert_step_empty_pre] at h
  dsimp only at h
  cases hrl : (elemsOf D).filter (fun c => !(isEmptyContainer c)) with
  | nil =>
    rw [hrl] at hrlAtoms
    exact absurd hrlAtoms.symm (wf_flatAtoms_ne_nil (.ser root) hwf)
  | cons h0 t0 =>
    rw [hrl] at h hrlAtoms hrlWf
    dsimp only at h
    simp only [wellFormedL, Bool.and_eq_true] at hrlWf
    have hw0 : wellFormed h0 = true := hrlWf.1
    have hf0 : step ∉ flatAtoms h0 := by
      intro hh
      apply hfresh
      rw [← hrlAtoms]
      simp only [flatAtomsL, List.mem_append]
      exact Or.inl hh
    obtain ⟨f, d, hibp, hfa, -, -⟩ := ibp_empty_posts step h0 none hw0 hf0
    rw [hibp] at h
    dsimp only at h
    rw [Option.some_inj] at h
    subst h
    refine ⟨rfl, headGroupAtoms h0, restAtoms h0 ++ flatAtomsL t0,
      headGroup_ne_nil h0 hw0, ?_, ?_⟩
    · rw [← hrlAtoms]
      show flatAtoms h0 ++ flatAtomsL t0 = _
      rw [flatAtoms_split h0]
      simp
    · show flatAtoms (.ser (f :: t0)) = _
      simp [flatAtoms, flatAtomsL, hfa]

theorem claim_C1_witness :
    wellFormed (.ser [Component.atom "A", Component.atom "B"]) = true ∧
    "C" ∉ flatAtomsL [Component.atom "A", Component.atom "B"] ∧
    ∃ r : WeldResult,
      add (.ser [Component.atom "A", Component.atom "B"]) "C" [] [] = some r ∧
      r.instructions = [.InsertParallel none "C"] ∧
      ∃ pre suf, pre ≠ [] ∧
        flatAtomsL [Component.atom "A", Component.atom "B"] = pre ++ suf ∧
        flatAtoms r.solution = pre ++ "C" :: suf := by
  refine ⟨rfl, by decide,
    ⟨⟨[.InsertParallel none "C"],
      .ser [.par [.atom "A", .atom "C"], .atom "B"]⟩, rfl, ?_⟩⟩
  exact claim_C1 [Component.atom "A", Component.atom "B"] "C" _
    rfl (by decide) rfl

end Pipeweld
